import Mathlib

/-!
Verification of the streaming graph builder and connectivity analyzer of the
`shortest_path` repository (`src/main.rs`).

The embedding models:
  * `NodeInfo`, `WayInfo`, `Map` (the graph type, `src/main.rs` lines 46-95);
  * `Map.check_connectivity` (lines 97-127): BFS component counting.  The Rust
    `HashMap` iteration is modelled by an association list; `VecDeque` by a
    `List` used as FIFO queue; the `visited` map by the list of node ids
    inserted with value `true` (entries inserted with `or_insert(false)` are
    observationally absent).  The `while` loop is bounded by an explicit fuel
    that provably never runs out; `none` in the outer `Option` layer marks
    fuel exhaustion (never reached), `none` in the inner layer marks a Rust
    panic (`unwrap` on a missing key).
  * the three-pass loader of `main` (lines 226-284): pass 1 collects used node
    ids of highway ways, pass 2 materializes used nodes, pass 3 links
    consecutive way nodes bidirectionally.  Rust panics (`unwrap` of a decode
    error, of a failed rewind, of a missing key, and the `len() - 1`
    underflow / out-of-bounds index on an empty way) are modelled as
    `Except LoadError`.
-/

/-- Tag maps (`osmpbfreader::Tags`), modelled as key/value association lists. -/
abbrev Tags := List (String × String)

/-- Embeds `NodeInfo` (src/main.rs lines 46-56); node ids are `Int` (`i64`). -/
structure NodeInfo where
  tags : Tags
  decimicro_lat : Int
  decimicro_lon : Int
  reachable_nodes : List Int
  deriving Repr, DecidableEq

/-- Embeds `WayInfo` (src/main.rs lines 69-75). -/
structure WayInfo where
  tags : Tags
  nodes : List Int
  deriving Repr, DecidableEq

/-- Embeds the `Map` struct (src/main.rs lines 86-95).  The `HashMap`s are
modelled as association lists; their list order stands for the arbitrary
iteration order of the hash maps. -/
structure Map where
  nodes : List (Int × NodeInfo)
  ways : List (Int × WayInfo)
  deriving Repr, DecidableEq

/-- `HashMap::get`: the value of the first binding of a key, if any. -/
def lookupId {β : Type} (k : Int) : List (Int × β) → Option β
  | [] => none
  | (a, b) :: t => if a = k then some b else lookupId k t

/-- `HashMap::insert`: replace the first binding of the key, or append. -/
def insertId {β : Type} (k : Int) (v : β) : List (Int × β) → List (Int × β)
  | [] => [(k, v)]
  | (a, b) :: t => if a = k then (k, v) :: t else (a, b) :: insertId k v t

/-- The neighbour list of a node: `reachable_nodes` of its binding, `[]` if the
node is absent (proof-side convenience; the executable functions below use
`lookupId` directly, so absence still models the Rust panic there). -/
def reachOf (m : List (Int × NodeInfo)) (x : Int) : List Int :=
  match lookupId x m with
  | some info => info.reachable_nodes
  | none => []

/-- Embeds the neighbour loop of `check_connectivity` (src/main.rs lines
114-119): walk the popped node's `reachable_nodes`; every neighbour not yet
visited is marked visited (consed onto `v`) and pushed to the back of the
queue `q`. -/
def enqueueNeighbors (v q : List Int) : List Int → List Int × List Int
  | [] => (v, q)
  | n :: t => if n ∈ v then enqueueNeighbors v q t else enqueueNeighbors (n :: v) (q ++ [n]) t

/-- Embeds the `while !to_visit.is_empty()` loop of `check_connectivity`
(src/main.rs lines 111-120), parameters: fuel, visited list, queue, the
`component_size` accumulator.  Returns `some (some (visited, size))` on normal
exit, `some none` if `self.nodes.get(&node).unwrap()` would panic, and `none`
on fuel exhaustion (shown below to be unreachable for the fuel used). -/
def bfsAux (m : List (Int × NodeInfo)) : Nat → List Int → List Int → Int →
    Option (Option (List Int × Int))
  | _, v, [], s => some (some (v, s))
  | 0, _, _ :: _, _ => none
  | fuel + 1, v, x :: qt, s =>
    match lookupId x m with
    | none => some none
    | some info =>
      let p := enqueueNeighbors v qt info.reachable_nodes
      bfsAux m fuel p.1 p.2 (s + 1)

/-- Ghost instrumentation of the same loop as `bfsAux`: instead of the
`component_size` accumulator it counts the number of dequeues (`pop_front`
calls), starting from zero. -/
def bfsPops (m : List (Int × NodeInfo)) : Nat → List Int → List Int →
    Option (Option (List Int × Int))
  | _, v, [] => some (some (v, 0))
  | 0, _, _ :: _ => none
  | fuel + 1, v, x :: qt =>
    match lookupId x m with
    | none => some none
    | some info =>
      let p := enqueueNeighbors v qt info.reachable_nodes
      (bfsPops m fuel p.1 p.2).map (Option.map (fun r => (r.1, r.2 + 1)))

/-- All node ids a run of `check_connectivity` can ever touch: the keys of the
node map together with every id in any `reachable_nodes` list. -/
def allIds (m : List (Int × NodeInfo)) : Finset Int :=
  (m.map Prod.fst).toFinset ∪ (m.map (fun p => p.2.reachable_nodes)).flatten.toFinset

/-- Fuel that provably suffices for every BFS in `check_connectivity`. -/
def stdFuel (m : List (Int × NodeInfo)) : Nat :=
  (allIds m).card + 2

/-- One component traversal of `check_connectivity` started at root `r`
(src/main.rs lines 107-120): visited := {r}, queue := [r], size := 1. -/
def componentBFS (m : List (Int × NodeInfo)) (r : Int) : Option (Option (List Int × Int)) :=
  bfsAux m (stdFuel m) [r] [r] 1

/-- The dequeue count of one component traversal started at root `r`. -/
def componentPops (m : List (Int × NodeInfo)) (r : Int) : Option (Option (List Int × Int)) :=
  bfsPops m (stdFuel m) [r] [r]

/-- Embeds the outer `for (curr, _) in self.nodes.iter()` loop of
`check_connectivity` (src/main.rs lines 102-125).  Accumulators: visited list
`v`, component counter `comps`, the list of sizes printed by line 122
(`reports`, exactly the sizes exceeding 500, in discovery order), and two ghost
accumulators: `sizes` records every component's final `component_size`, and
`clists` records the nodes visited during each component's traversal. -/
def checkAux (m : List (Int × NodeInfo)) :
    List (Int × NodeInfo) → List Int → Int → List Int → List Int → List (List Int) →
    Option (Option (Int × List Int × List Int × List (List Int)))
  | [], _, comps, reports, sizes, clists => some (some (comps, reports, sizes, clists))
  | (curr, _) :: rest, v, comps, reports, sizes, clists =>
    if curr ∈ v then checkAux m rest v comps reports sizes clists
    else
      match lookupId curr m with
      | none => some none
      | some info =>
        if info.reachable_nodes = [] then checkAux m rest v comps reports sizes clists
        else
          match bfsAux m (stdFuel m) (curr :: v) [curr] 1 with
          | none => none
          | some none => some none
          | some (some (v', s)) =>
            checkAux m rest v' (comps + 1)
              (if 500 < s then reports ++ [s] else reports)
              (sizes ++ [s])
              (clists ++ [v'.take (v'.length - v.length)])

/-- `check_connectivity` with its ghost outputs: component count, reported
(printed) sizes, all component sizes, all component node lists. -/
def checkFull (mp : Map) : Option (Option (Int × List Int × List Int × List (List Int))) :=
  checkAux mp.nodes mp.nodes [] 0 [] [] []

/-- Embeds `Map::check_connectivity` (src/main.rs lines 97-127).  The `Int` is
the returned component count; the `List Int` is the sequence of component
sizes printed by line 122 (the oversized-component reports). -/
def check_connectivity (mp : Map) : Option (Option (Int × List Int)) :=
  (checkFull mp).map (Option.map (fun r => (r.1, r.2.1)))

/-- The load errors: `decode` models the `obj.unwrap()` panic on a bad record,
`rewind` the `pbf.rewind().unwrap()` panic, `dangling` the
`nodes.get_mut(..).unwrap()` panic of pass 3, and `underflow` the
`way.nodes.len() - 1` usize-underflow / out-of-bounds-index panic of pass 3 on
a way with an empty node list (src/main.rs line 263). -/
inductive LoadError where
  | decode
  | rewind
  | dangling
  | underflow
  deriving Repr, DecidableEq

/-- A decoded primitive record of the pbf stream. -/
inductive OsmObj where
  | node (id : Int) (tags : Tags) (decimicro_lat decimicro_lon : Int)
  | way (id : Int) (tags : Tags) (nodes : List Int)
  | other
  deriving Repr, DecidableEq

/-- The primitive source: the decoded stream (`none` marks a record whose
decoding fails) and whether `rewind` succeeds. -/
structure Source where
  objs : List (Option OsmObj)
  rewindable : Bool
  deriving Repr, DecidableEq

/-- Embeds `is_highway` (src/main.rs lines 222-224). -/
def is_highway (tags : Tags) : Bool :=
  tags.any (fun p => p.1 = "highway")

/-- Embeds pass 1 of `main` (src/main.rs lines 230-240): collect into a set
the node ids of every way whose tags contain the key `highway`. -/
def pass1Aux (acc : Finset Int) : List (Option OsmObj) → Except LoadError (Finset Int)
  | [] => .ok acc
  | none :: _ => .error .decode
  | some o :: rest =>
    match o with
    | .way _ tags ns =>
      if is_highway tags then pass1Aux (ns.foldl (fun s i => insert i s) acc) rest
      else pass1Aux acc rest
    | _ => pass1Aux acc rest

/-- Pass 1 started from the empty used-id set. -/
def pass1 (objs : List (Option OsmObj)) : Except LoadError (Finset Int) :=
  pass1Aux ∅ objs

/-- Embeds pass 2 of `main` (src/main.rs lines 245-252): materialize exactly
the node records whose id is in the used-id set, with empty adjacency. -/
def pass2Aux (used : Finset Int) (acc : List (Int × NodeInfo)) :
    List (Option OsmObj) → Except LoadError (List (Int × NodeInfo))
  | [] => .ok acc
  | none :: _ => .error .decode
  | some o :: rest =>
    match o with
    | .node id tags la lo =>
      if id ∈ used then pass2Aux used (insertId id ⟨tags, la, lo, []⟩ acc) rest
      else pass2Aux used acc rest
    | _ => pass2Aux used acc rest

/-- Pass 2 started from the empty node map. -/
def pass2 (used : Finset Int) (objs : List (Option OsmObj)) :
    Except LoadError (List (Int × NodeInfo)) :=
  pass2Aux used [] objs

/-- `nodes.get_mut(&k).unwrap().reachable_nodes.push(x)`: append `x` to the
neighbour list of the first binding of `k`; `none` models the unwrap panic. -/
def pushReach : List (Int × NodeInfo) → Int → Int → Option (List (Int × NodeInfo))
  | [], _, _ => none
  | (a, info) :: t, k, x =>
    if a = k then some ((a, { info with reachable_nodes := info.reachable_nodes ++ [x] }) :: t)
    else (pushReach t k x).map (fun t' => (a, info) :: t')

/-- Embeds the `for i in 0..way.nodes.len() - 1` loop of pass 3 (src/main.rs
lines 263-275): link every consecutive pair bidirectionally.  An empty node
list panics in Rust (usize underflow of `len() - 1` in debug builds, index out
of bounds in release builds), modelled by `LoadError.underflow`; a singleton
list makes the loop body run zero times. -/
def linkWay : List (Int × NodeInfo) → List Int → Except LoadError (List (Int × NodeInfo))
  | _, [] => .error .underflow
  | m, [_] => .ok m
  | m, a :: b :: t =>
    match pushReach m a b with
    | none => .error .dangling
    | some m1 =>
      match pushReach m1 b a with
      | none => .error .dangling
      | some m2 => linkWay m2 (b :: t)

/-- Embeds pass 3 of `main` (src/main.rs lines 257-278): for every way whose
tags contain `highway`, link its consecutive nodes and store its `WayInfo`. -/
def pass3 (n : List (Int × NodeInfo)) (w : List (Int × WayInfo)) :
    List (Option OsmObj) → Except LoadError (List (Int × NodeInfo) × List (Int × WayInfo))
  | [] => .ok (n, w)
  | none :: _ => .error .decode
  | some o :: rest =>
    match o with
    | .way id tags ns =>
      if is_highway tags then
        match linkWay n ns with
        | .error e => .error e
        | .ok n' => pass3 n' (insertId id ⟨tags, ns⟩ w) rest
      else pass3 n w rest
    | _ => pass3 n w rest

/-- Embeds the load phase of `main` (src/main.rs lines 227-282): pass 1, a
rewind, pass 2, a rewind, pass 3; any panic aborts the load with its error. -/
def load (src : Source) : Except LoadError Map :=
  match pass1 src.objs with
  | .error e => .error e
  | .ok used =>
    if src.rewindable then
      match pass2 used src.objs with
      | .error e => .error e
      | .ok nodes =>
        if src.rewindable then
          match pass3 nodes [] src.objs with
          | .error e => .error e
          | .ok nw => .ok ⟨nw.1, nw.2⟩
        else .error .rewind
    else .error .rewind

/-- Embeds `main` up to its analysis output (src/main.rs lines 226-284): a
failed load aborts the process before any analysis output; otherwise the
component count and the oversized-size reports are produced. -/
def mainRun (src : Source) : Except LoadError (Option (Option (Int × List Int))) :=
  match load src with
  | .error e => .error e
  | .ok mp => .ok (check_connectivity mp)

/-! Basic lemmas about the association-list model. -/

theorem lookupId_mem {β : Type} {k : Int} {b : β} :
    ∀ {m : List (Int × β)}, lookupId k m = some b → (k, b) ∈ m := by
  intro m
  induction m with
  | nil => intro h; simp [lookupId] at h
  | cons p t ih =>
    intro h
    obtain ⟨a, c⟩ := p
    by_cases ha : a = k
    · subst ha
      simp [lookupId] at h
      simp [h]
    · simp [lookupId, ha] at h
      exact List.mem_cons_of_mem _ (ih h)

theorem lookupId_isSome_iff {β : Type} {k : Int} :
    ∀ {m : List (Int × β)}, (lookupId k m).isSome ↔ k ∈ m.map Prod.fst := by
  intro m
  induction m with
  | nil => simp [lookupId]
  | cons p t ih =>
    obtain ⟨a, c⟩ := p
    by_cases ha : a = k
    · subst ha; simp [lookupId]
    · simp [lookupId, ha, ih, Ne.symm ha]

theorem lookupId_of_mem_nodup {β : Type} {k : Int} {b : β} :
    ∀ {m : List (Int × β)}, (m.map Prod.fst).Nodup → (k, b) ∈ m → lookupId k m = some b := by
  intro m
  induction m with
  | nil => intro _ h; simp at h
  | cons p t ih =>
    intro hnd hmem
    obtain ⟨a, c⟩ := p
    rw [List.map_cons, List.nodup_cons] at hnd
    rcases List.mem_cons.mp hmem with h | h
    · have h1 : k = a := congrArg Prod.fst h
      have h2 : b = c := congrArg Prod.snd h
      subst h1; subst h2
      simp [lookupId]
    · have hak : a ≠ k := by
        intro he
        subst he
        exact hnd.1 (List.mem_map.mpr ⟨(a, b), h, rfl⟩)
      simp [lookupId, hak, ih hnd.2 h]

/-! Lemmas about `enqueueNeighbors`: the visited list grows by a fresh block
`w` drawn from the neighbour list, and the same block is appended to the
queue. -/

theorem enqueue_spec : ∀ (ns v q : List Int), ∃ w : List Int,
    (enqueueNeighbors v q ns).1 = w ++ v ∧
    (enqueueNeighbors v q ns).2 = q ++ w.reverse ∧
    (∀ x ∈ w, x ∈ ns ∧ x ∉ v) ∧
    (∀ y ∈ ns, y ∈ v ∨ y ∈ w) := by
  intro ns
  induction ns with
  | nil =>
    intro v q
    exact ⟨[], by simp [enqueueNeighbors], by simp [enqueueNeighbors], by simp, by simp⟩
  | cons n t ih =>
    intro v q
    by_cases hn : n ∈ v
    · obtain ⟨w, h1, h2, h3, h4⟩ := ih v q
      refine ⟨w, ?_, ?_, ?_, ?_⟩
      · simpa [enqueueNeighbors, hn] using h1
      · simpa [enqueueNeighbors, hn] using h2
      · intro x hx
        exact ⟨List.mem_cons_of_mem _ (h3 x hx).1, (h3 x hx).2⟩
      · intro y hy
        rcases List.mem_cons.mp hy with h | h
        · exact Or.inl (h ▸ hn)
        · exact h4 y h
    · obtain ⟨w, h1, h2, h3, h4⟩ := ih (n :: v) (q ++ [n])
      refine ⟨w ++ [n], ?_, ?_, ?_, ?_⟩
      · rw [show enqueueNeighbors v q (n :: t) = enqueueNeighbors (n :: v) (q ++ [n]) t by
          simp [enqueueNeighbors, hn]]
        rw [h1]; simp
      · rw [show enqueueNeighbors v q (n :: t) = enqueueNeighbors (n :: v) (q ++ [n]) t by
          simp [enqueueNeighbors, hn]]
        rw [h2]; simp
      · intro x hx
        rcases List.mem_append.mp hx with h | h
        · have := h3 x h
          exact ⟨List.mem_cons_of_mem _ this.1, fun hv => this.2 (List.mem_cons_of_mem _ hv)⟩
        · have hxn : x = n := by simpa using h
          subst hxn
          exact ⟨List.mem_cons_self _ _, hn⟩
      · intro y hy
        rcases List.mem_cons.mp hy with h | h
        · exact Or.inr (List.mem_append.mpr (Or.inr (by simp [h])))
        · rcases h4 y h with h' | h'
          · rcases List.mem_cons.mp h' with h'' | h''
            · exact Or.inr (List.mem_append.mpr (Or.inr (by simp [h''])))
            · exact Or.inl h''
          · exact Or.inr (List.mem_append.mpr (Or.inl h'))

theorem enqueue_nodup : ∀ (ns v q : List Int), v.Nodup → (enqueueNeighbors v q ns).1.Nodup := by
  intro ns
  induction ns with
  | nil => intro v q hv; simpa [enqueueNeighbors] using hv
  | cons n t ih =>
    intro v q hv
    by_cases hn : n ∈ v
    · simpa [enqueueNeighbors, hn] using ih v q hv
    · rw [show enqueueNeighbors v q (n :: t) = enqueueNeighbors (n :: v) (q ++ [n]) t by
        simp [enqueueNeighbors, hn]]
      exact ih _ _ (List.nodup_cons.mpr ⟨hn, hv⟩)

/-! Bookkeeping of the BFS loop: whenever the loop exits normally, the final
visited list extends the initial one, nodup-ness is preserved, and the final
`component_size` satisfies `s' + |v| = s + |q| + |v'|`: each dequeue adds one
to the size, and each element ever dequeued was enqueued exactly once. -/

theorem bfs_book {m : List (Int × NodeInfo)} :
    ∀ (fuel : Nat) (v q : List Int) (s : Int) (v' : List Int) (s' : Int),
    bfsAux m fuel v q s = some (some (v', s')) →
    (∃ w, v' = w ++ v) ∧ (v.Nodup → v'.Nodup) ∧
      s' + (v.length : Int) = s + q.length + v'.length := by
  intro fuel
  induction fuel with
  | zero =>
    intro v q s v' s' h
    cases q with
    | nil =>
      simp [bfsAux] at h
      obtain ⟨h1, h2⟩ := h
      subst h1; subst h2
      exact ⟨⟨[], by simp⟩, fun h => h, by simp⟩
    | cons x qt => simp [bfsAux] at h
  | succ fuel ih =>
    intro v q s v' s' h
    cases q with
    | nil =>
      simp [bfsAux] at h
      obtain ⟨h1, h2⟩ := h
      subst h1; subst h2
      exact ⟨⟨[], by simp⟩, fun h => h, by simp⟩
    | cons x qt =>
      rw [show bfsAux m (fuel + 1) v (x :: qt) s =
          (match lookupId x m with
          | none => some none
          | some info =>
            bfsAux m fuel (enqueueNeighbors v qt info.reachable_nodes).1
              (enqueueNeighbors v qt info.reachable_nodes).2 (s + 1)) from rfl] at h
      cases hl : lookupId x m with
      | none => rw [hl] at h; simp at h
      | some info =>
        rw [hl] at h
        obtain ⟨w, hw1, hw2, _, _⟩ := enqueue_spec info.reachable_nodes v qt
        obtain ⟨⟨w2, hww⟩, hnd, hsz⟩ := ih _ _ _ _ _ h
        refine ⟨⟨w2 ++ w, by rw [hww, hw1]; simp⟩, ?_, ?_⟩
        · intro hv
          exact hnd (enqueue_nodup _ _ _ hv)
        · rw [hw1, hw2] at hsz
          simp at hsz ⊢
          omega

/-! The `component_size` accumulator versus the dequeue count. -/

theorem bfs_size_vs_pops {m : List (Int × NodeInfo)} :
    ∀ (fuel : Nat) (v q : List Int) (s : Int),
    bfsAux m fuel v q s = (bfsPops m fuel v q).map (Option.map (fun r => (r.1, s + r.2))) := by
  intro fuel
  induction fuel with
  | zero =>
    intro v q s
    cases q with
    | nil => simp [bfsAux, bfsPops]
    | cons x qt => simp [bfsAux, bfsPops]
  | succ fuel ih =>
    intro v q s
    cases q with
    | nil => simp [bfsAux, bfsPops]
    | cons x qt =>
      cases hl : lookupId x m with
      | none => simp [bfsAux, bfsPops, hl]
      | some info =>
        simp only [bfsAux, bfsPops, hl]
        rw [ih]
        cases hb : bfsPops m fuel (enqueueNeighbors v qt info.reachable_nodes).1
            (enqueueNeighbors v qt info.reachable_nodes).2 with
        | none => simp
        | some o =>
          cases o with
          | none => simp
          | some r =>
            simp only [Option.map_some', Option.map_map]
            refine congrArg some (congrArg some ?_)
            simp [Function.comp]
            ring

/-- Claim C2 (confirmed).  For every component discovered by
`check_connectivity`, the component traversal's final `component_size` equals
`1`, the value it is initialized to when the component starts, plus the number
of nodes dequeued from the BFS queue during the traversal: `componentBFS`
(the traversal of src/main.rs lines 106-120) returns exactly the visited set
and `1 + k` where `k` is the dequeue count computed by the instrumented
traversal `componentPops`. -/
theorem c2_size_is_one_plus_dequeues (m : List (Int × NodeInfo)) (r : Int) :
    componentBFS m r = (componentPops m r).map (Option.map (fun p => (p.1, 1 + p.2))) := by
  unfold componentBFS componentPops
  exact bfs_size_vs_pops (stdFuel m) [r] [r] 1

/-- Claim C1, amended (the code reports a component of 500 points because the
size accumulator double-counts the root).  For every component traversal of
`check_connectivity` that completes normally from root `r` with visited list
`v` and final size `s`, the oversized-component report of src/main.rs line
121-123 (fired exactly when `500 < s`) triggers if and only if the component
contains at least 500 points; a component of exactly 499 points does not
trigger it, and a component of exactly 500 points does. -/
theorem c1_amended_report_threshold (m : List (Int × NodeInfo)) (r : Int)
    (v : List Int) (s : Int) (h : componentBFS m r = some (some (v, s))) :
    (500 < s ↔ 500 ≤ v.length) ∧
      (v.length = 499 → ¬ 500 < s) ∧ (v.length = 500 → 500 < s) := by
  obtain ⟨_, _, hsz⟩ := bfs_book (m := m) (stdFuel m) [r] [r] 1 v s h
  simp at hsz
  constructor
  · constructor
    · intro hs
      omega
    · intro hv
      omega
  · constructor
    · intro hv
      omega
    · intro hv
      omega

/-- Witness for `c1_amended_report_threshold` at a concrete two-node graph:
the component of the edge 0 – 1 has 2 points and size 3, and does not
trigger a report. -/
theorem c1_amended_report_threshold_witness :
    componentBFS [(0, ⟨[], 0, 0, [1]⟩), (1, ⟨[], 0, 0, [0]⟩)] 0 = some (some ([1, 0], 3)) ∧
      (500 < (3 : Int) ↔ 500 ≤ ([1, 0] : List Int).length) :=
  ⟨by decide, (c1_amended_report_threshold [(0, ⟨[], 0, 0, [1]⟩), (1, ⟨[], 0, 0, [0]⟩)]
    0 [1, 0] 3 (by decide)).1⟩

/-! Step lemmas used to run the analyzer symbolically on concrete families. -/

theorem bfsAux_step_some {m : List (Int × NodeInfo)} {f : Nat} {v : List Int} {x : Int}
    {qt : List Int} {s : Int} {info : NodeInfo} (h : lookupId x m = some info) :
    bfsAux m (f + 1) v (x :: qt) s =
      bfsAux m f (enqueueNeighbors v qt info.reachable_nodes).1
        (enqueueNeighbors v qt info.reachable_nodes).2 (s + 1) := by
  simp [bfsAux, h]

theorem enqueue_all_mem {v q : List Int} :
    ∀ {ns : List Int}, (∀ y ∈ ns, y ∈ v) → enqueueNeighbors v q ns = (v, q) := by
  intro ns
  induction ns with
  | nil => intro _; simp [enqueueNeighbors]
  | cons n t ih =>
    intro h
    have hn : n ∈ v := h n (List.mem_cons_self _ _)
    rw [show enqueueNeighbors v q (n :: t) = enqueueNeighbors v q t by simp [enqueueNeighbors, hn]]
    exact ih (fun y hy => h y (List.mem_cons_of_mem _ hy))

theorem enqueue_all_fresh :
    ∀ (ns v q : List Int), (∀ y ∈ ns, y ∉ v) → ns.Nodup →
    enqueueNeighbors v q ns = (ns.reverse ++ v, q ++ ns) := by
  intro ns
  induction ns with
  | nil => intro v q _ _; simp [enqueueNeighbors]
  | cons n t ih =>
    intro v q h hnd
    have hn : n ∉ v := h n (List.mem_cons_self _ _)
    rw [show enqueueNeighbors v q (n :: t) = enqueueNeighbors (n :: v) (q ++ [n]) t by
      simp [enqueueNeighbors, hn]]
    rw [List.nodup_cons] at hnd
    rw [ih (n :: v) (q ++ [n]) ?_ hnd.2]
    · simp
    · intro y hy
      rw [List.mem_cons]
      rintro (he | hv)
      · exact hnd.1 (he ▸ hy)
      · exact h y (List.mem_cons_of_mem _ hy) hv

theorem bfs_drain {m : List (Int × NodeInfo)} :
    ∀ (l : List Int) (fuel : Nat) (v : List Int) (s : Int),
    (∀ x ∈ l, ∃ info, lookupId x m = some info ∧ ∀ y ∈ info.reachable_nodes, y ∈ v) →
    l.length ≤ fuel →
    bfsAux m fuel v l s = some (some (v, s + l.length)) := by
  intro l
  induction l with
  | nil => intro fuel v s _ _; simp [bfsAux]
  | cons x t ih =>
    intro fuel v s h hf
    cases fuel with
    | zero => simp at hf
    | succ f =>
      obtain ⟨info, hl, hmem⟩ := h x (List.mem_cons_self _ _)
      rw [bfsAux_step_some hl]
      rw [enqueue_all_mem hmem]
      rw [ih f v (s + 1) (fun y hy => h y (List.mem_cons_of_mem _ hy)) (by simpa using hf)]
      simp
      ring

theorem checkAux_skip_visited {m : List (Int × NodeInfo)} {curr : Int} {j : NodeInfo}
    {rest : List (Int × NodeInfo)} {v : List Int} {comps : Int}
    {reports sizes : List Int} {clists : List (List Int)} (h : curr ∈ v) :
    checkAux m ((curr, j) :: rest) v comps reports sizes clists =
      checkAux m rest v comps reports sizes clists := by
  simp [checkAux, h]

theorem checkAux_root {m : List (Int × NodeInfo)} {curr : Int} {j info : NodeInfo}
    {rest : List (Int × NodeInfo)} {v v' : List Int} {comps : Int} {s : Int}
    {reports sizes : List Int} {clists : List (List Int)}
    (hv : curr ∉ v) (hl : lookupId curr m = some info) (hne : info.reachable_nodes ≠ [])
    (hb : bfsAux m (stdFuel m) (curr :: v) [curr] 1 = some (some (v', s))) :
    checkAux m ((curr, j) :: rest) v comps reports sizes clists =
      checkAux m rest v' (comps + 1)
        (if 500 < s then reports ++ [s] else reports)
        (sizes ++ [s]) (clists ++ [v'.take (v'.length - v.length)]) := by
  simp [checkAux, hv, hl, hne, hb]

theorem checkAux_all_visited {m : List (Int × NodeInfo)} :
    ∀ (entries : List (Int × NodeInfo)) (v : List Int) (comps : Int)
    (reports sizes : List Int) (clists : List (List Int)),
    (∀ p ∈ entries, p.1 ∈ v) →
    checkAux m entries v comps reports sizes clists =
      some (some (comps, reports, sizes, clists)) := by
  intro entries
  induction entries with
  | nil => intro v comps reports sizes clists _; rfl
  | cons p rest ih =>
    intro v comps reports sizes clists h
    obtain ⟨curr, j⟩ := p
    rw [checkAux_skip_visited (h (curr, j) (List.mem_cons_self _ _))]
    exact ih v comps reports sizes clists (fun p hp => h p (List.mem_cons_of_mem _ hp))

/-! The star family: one centre node `0` joined to `n` leaves `1, …, n`.
Used to exhibit a concrete 500-point component. -/

/-- The leaf ids of the star with `n` leaves. -/
def starLeaves (n : Nat) : List Int :=
  (List.range n).map (fun i : Nat => (i : Int) + 1)

/-- The node map of the star with `n` leaves: centre `0` adjacent to every
leaf, every leaf adjacent to the centre. -/
def starNodes (n : Nat) : List (Int × NodeInfo) :=
  (0, ⟨[], 0, 0, starLeaves n⟩) :: (starLeaves n).map (fun x => (x, ⟨[], 0, 0, [0]⟩))

theorem starLeaves_nodup (n : Nat) : (starLeaves n).Nodup := by
  unfold starLeaves
  apply List.Nodup.map
  · intro a b hab
    simp at hab
    omega
  · exact List.nodup_range n

theorem starLeaves_pos {n : Nat} {x : Int} (h : x ∈ starLeaves n) : 1 ≤ x := by
  unfold starLeaves at h
  simp at h
  obtain ⟨i, -, hi⟩ := h
  omega

theorem starNodes_keys_eq (n : Nat) : (starNodes n).map Prod.fst = 0 :: starLeaves n := by
  unfold starNodes
  rw [List.map_cons, List.map_map]
  have : (Prod.fst ∘ fun x : Int => (x, (⟨[], 0, 0, [0]⟩ : NodeInfo))) = id :=
    funext fun x => rfl
  rw [this, List.map_id]

theorem starNodes_keys_nodup (n : Nat) : ((starNodes n).map Prod.fst).Nodup := by
  rw [starNodes_keys_eq, List.nodup_cons]
  refine ⟨fun h => ?_, starLeaves_nodup n⟩
  have := starLeaves_pos h
  omega

theorem starNodes_lookup_leaf {n : Nat} {x : Int} (h : x ∈ starLeaves n) :
    lookupId x (starNodes n) = some ⟨[], 0, 0, [0]⟩ := by
  refine lookupId_of_mem_nodup (starNodes_keys_nodup n) ?_
  exact List.mem_cons_of_mem _ (List.mem_map.mpr ⟨x, h, rfl⟩)

theorem starLeaves_length (n : Nat) : (starLeaves n).length = n := by
  unfold starLeaves
  rw [List.length_map, List.length_range]

theorem starNodes_card_ge (n : Nat) : n + 1 ≤ (allIds (starNodes n)).card := by
  have hsub : ((starNodes n).map Prod.fst).toFinset ⊆ allIds (starNodes n) :=
    Finset.subset_union_left
  have hcard : ((starNodes n).map Prod.fst).toFinset.card = n + 1 := by
    rw [List.toFinset_card_of_nodup (starNodes_keys_nodup n), starNodes_keys_eq,
      List.length_cons, starLeaves_length]
  calc n + 1 = ((starNodes n).map Prod.fst).toFinset.card := hcard.symm
    _ ≤ (allIds (starNodes n)).card := Finset.card_le_card hsub

/-- The star with `n ≥ 1` leaves is analyzed as a single component of `n + 1`
points whose computed size is `n + 2`. -/
theorem star_checkFull (n : Nat) (hn : 1 ≤ n) :
    checkFull ⟨starNodes n, []⟩ =
      some (some (1, (if 500 < (n : Int) + 2 then [(n : Int) + 2] else []),
        [(n : Int) + 2], [(starLeaves n).reverse ++ [0]])) := by
  have hlook0 : lookupId 0 (starNodes n) = some ⟨[], 0, 0, starLeaves n⟩ := by
    simp [starNodes, lookupId]
  have hne : starLeaves n ≠ [] := by
    intro h
    have := starLeaves_length n
    rw [h] at this
    simp at this
    omega
  have hfresh : ∀ y ∈ starLeaves n, y ∉ ([0] : List Int) := by
    intro y hy hmem
    have h1 := starLeaves_pos hy
    have h0 : y = 0 := by simpa using hmem
    omega
  obtain ⟨F, hFe, hFl⟩ : ∃ F, stdFuel (starNodes n) = F + 1 ∧ n ≤ F := by
    refine ⟨(allIds (starNodes n)).card + 1, rfl, ?_⟩
    have := starNodes_card_ge n
    omega
  have henq : enqueueNeighbors [0] [] (starLeaves n) =
      ((starLeaves n).reverse ++ [0], starLeaves n) := by
    rw [enqueue_all_fresh _ _ _ hfresh (starLeaves_nodup n)]
    simp
  have hbfs : bfsAux (starNodes n) (stdFuel (starNodes n)) [0] [0] 1 =
      some (some ((starLeaves n).reverse ++ [0], (n : Int) + 2)) := by
    rw [hFe, bfsAux_step_some hlook0]
    show bfsAux (starNodes n) F (enqueueNeighbors [0] [] (starLeaves n)).1
      (enqueueNeighbors [0] [] (starLeaves n)).2 (1 + 1) = _
    rw [henq]
    show bfsAux (starNodes n) F ((starLeaves n).reverse ++ [0]) (starLeaves n) (1 + 1) = _
    rw [bfs_drain (starLeaves n) F ((starLeaves n).reverse ++ [0]) (1 + 1) ?_ ?_]
    · rw [starLeaves_length]
      norm_num
      ring
    · intro x hx
      refine ⟨⟨[], 0, 0, [0]⟩, starNodes_lookup_leaf hx, ?_⟩
      intro y hy
      have : y = 0 := by simpa using hy
      subst this
      exact List.mem_append.mpr (Or.inr (by simp))
    · rw [starLeaves_length]
      omega
  unfold checkFull
  show checkAux (starNodes n)
    ((0, ⟨[], 0, 0, starLeaves n⟩) :: (starLeaves n).map (fun x => (x, ⟨[], 0, 0, [0]⟩)))
    [] 0 [] [] [] = _
  rw [checkAux_root (by simp) hlook0 hne (by exact hbfs)]
  rw [checkAux_all_visited]
  · have htake : ((starLeaves n).reverse ++ [0]).take
        (((starLeaves n).reverse ++ [0]).length - ([] : List Int).length) =
        (starLeaves n).reverse ++ [0] := by
      simp
    rw [htake]
    simp
  · intro p hp
    obtain ⟨x, hx, hpx⟩ := List.mem_map.mp hp
    rw [← hpx]
    exact List.mem_append.mpr (Or.inl (List.mem_reverse.mpr hx))

/-- Claim C1, counterexample.  A component containing exactly 500 points (the
star with centre `0` and 499 leaves) does trigger an oversized-component
report: the analyzer prints the size 501 for it, refuting the claim that a
500-point component stays silent. -/
theorem c1_counterexample_500_points_trigger :
    check_connectivity ⟨starNodes 499, []⟩ = some (some (1, [501])) ∧
      (starNodes 499).length = 500 := by
  constructor
  · unfold check_connectivity
    rw [star_checkFull 499 (by norm_num)]
    norm_num
  · unfold starNodes
    rw [List.length_cons, List.length_map, starLeaves_length]

/-- The two-node, one-edge graph used as a concrete counterexample for C6. -/
def edgeNodes : List (Int × NodeInfo) :=
  [(0, ⟨[], 0, 0, [1]⟩), (1, ⟨[], 0, 0, [0]⟩)]

/-- The points of the map whose adjacency list is nonempty. -/
def nonIsolated (m : List (Int × NodeInfo)) : Finset Int :=
  (m.map Prod.fst).toFinset.filter (fun x => reachOf m x ≠ [])

/-- Claim C6, counterexample.  On the single-edge graph the analyzer computes
one component of size 3 while only 2 points have nonempty adjacency, so the
sum of the component sizes (3) differs from the number of points with
nonempty adjacency (2): the claimed equality fails as stated. -/
theorem c6_counterexample_sum_of_sizes :
    checkFull ⟨edgeNodes, []⟩ = some (some (1, [], [3], [[1, 0]])) ∧
      (nonIsolated edgeNodes).card = 2 ∧ (([3] : List Int).sum ≠ (2 : Int)) := by
  refine ⟨by decide, by decide, by decide⟩

/-- An asymmetric adjacency listing: `2` lists `0` as a neighbour but `0` does
not list `2`.  A legal value of the `Map` type, though never produced by the
loader (pass 3 always links both directions). -/
def asymFwd : List (Int × NodeInfo) :=
  [(0, ⟨[], 0, 0, [1]⟩), (1, ⟨[], 0, 0, [0]⟩), (2, ⟨[], 0, 0, [0]⟩)]

/-- The same three bindings as `asymFwd` in a different iteration order. -/
def asymRev : List (Int × NodeInfo) :=
  [(2, ⟨[], 0, 0, [0]⟩), (0, ⟨[], 0, 0, [1]⟩), (1, ⟨[], 0, 0, [0]⟩)]

/-- Claim C5, counterexample.  For graphs with inconsistent (one-directional)
adjacency lists the component count of `check_connectivity` is not invariant
under the iteration order: the same three bindings enumerated in two orders
give counts 2 and 1. -/
theorem c5_counterexample_order_dependent :
    asymRev.Perm asymFwd ∧
      check_connectivity ⟨asymFwd, []⟩ = some (some (2, [])) ∧
      check_connectivity ⟨asymRev, []⟩ = some (some (1, [])) := by
  refine ⟨by decide, by decide, by decide⟩

/-! Totality of the analyzer: the fuel `stdFuel` never runs out, on any map. -/

theorem mem_allIds_of_key {m : List (Int × NodeInfo)} {x : Int}
    (h : x ∈ m.map Prod.fst) : x ∈ allIds m :=
  Finset.mem_union_left _ (List.mem_toFinset.mpr h)

theorem mem_allIds_of_reach {m : List (Int × NodeInfo)} {x y : Int} {info : NodeInfo}
    (hl : lookupId x m = some info) (hy : y ∈ info.reachable_nodes) : y ∈ allIds m := by
  refine Finset.mem_union_right _ (List.mem_toFinset.mpr ?_)
  refine List.mem_flatten.mpr ⟨info.reachable_nodes, ?_, hy⟩
  exact List.mem_map.mpr ⟨(x, info), lookupId_mem hl, rfl⟩

theorem bfs_total {m : List (Int × NodeInfo)} :
    ∀ (fuel : Nat) (v q : List Int) (s : Int), v.Nodup → (∀ x ∈ q, x ∈ v) →
    (allIds m \ v.toFinset).card + q.length ≤ fuel →
    ∃ out, bfsAux m fuel v q s = some out := by
  intro fuel
  induction fuel with
  | zero =>
    intro v q s _ _ hf
    cases q with
    | nil => exact ⟨some (v, s), rfl⟩
    | cons x qt => simp at hf
  | succ f ih =>
    intro v q s hvnd hqv hf
    cases q with
    | nil => exact ⟨some (v, s), rfl⟩
    | cons x qt =>
      cases hl : lookupId x m with
      | none => exact ⟨none, by simp [bfsAux, hl]⟩
      | some info =>
        rw [bfsAux_step_some hl]
        obtain ⟨w, hw1, hw2, hw3, -⟩ := enqueue_spec info.reachable_nodes v qt
        have hp1nd : (enqueueNeighbors v qt info.reachable_nodes).1.Nodup :=
          enqueue_nodup _ _ _ hvnd
        have hwnd : w.Nodup := by
          rw [hw1] at hp1nd
          exact (List.nodup_append.mp hp1nd).1
        have hwsub : w.toFinset ⊆ allIds m \ v.toFinset := by
          intro y hy
          rw [List.mem_toFinset] at hy
          rw [Finset.mem_sdiff]
          exact ⟨mem_allIds_of_reach hl (hw3 y hy).1,
            fun hc => (hw3 y hy).2 (List.mem_toFinset.mp hc)⟩
        refine ih _ _ (s + 1) hp1nd ?_ ?_
        · intro y hy
          rw [hw2, List.mem_append] at hy
          rw [hw1, List.mem_append]
          rcases hy with hy | hy
          · exact Or.inr (hqv y (List.mem_cons_of_mem _ hy))
          · exact Or.inl (List.mem_reverse.mp hy)
        · have hset : allIds m \ (w ++ v).toFinset = (allIds m \ v.toFinset) \ w.toFinset := by
            ext y
            simp only [Finset.mem_sdiff, List.toFinset_append, Finset.mem_union]
            tauto
          have hwlen : w.length ≤ (allIds m \ v.toFinset).card := by
            calc w.length = w.toFinset.card := (List.toFinset_card_of_nodup hwnd).symm
              _ ≤ (allIds m \ v.toFinset).card := Finset.card_le_card hwsub
          have hcard : (allIds m \ (enqueueNeighbors v qt info.reachable_nodes).1.toFinset).card =
              (allIds m \ v.toFinset).card - w.length := by
            rw [hw1, hset, Finset.card_sdiff hwsub, List.toFinset_card_of_nodup hwnd]
          have hlen2 : (enqueueNeighbors v qt info.reachable_nodes).2.length =
              qt.length + w.length := by
            rw [hw2]
            simp
          rw [hcard, hlen2]
          simp at hf
          omega

theorem check_total {m : List (Int × NodeInfo)} :
    ∀ (entries : List (Int × NodeInfo)) (v : List Int) (comps : Int)
    (reports sizes : List Int) (clists : List (List Int)), v.Nodup →
    ∃ out, checkAux m entries v comps reports sizes clists = some out := by
  intro entries
  induction entries with
  | nil => intro v comps reports sizes clists _; exact ⟨_, rfl⟩
  | cons p rest ih =>
    intro v comps reports sizes clists hvnd
    obtain ⟨curr, j⟩ := p
    by_cases hv : curr ∈ v
    · rw [checkAux_skip_visited hv]
      exact ih v comps reports sizes clists hvnd
    · cases hl : lookupId curr m with
      | none => exact ⟨none, by simp [checkAux, hv, hl]⟩
      | some info =>
        by_cases hne : info.reachable_nodes = []
        · rw [show checkAux m ((curr, j) :: rest) v comps reports sizes clists =
              checkAux m rest v comps reports sizes clists by simp [checkAux, hv, hl, hne]]
          exact ih v comps reports sizes clists hvnd
        · have hnd1 : (curr :: v).Nodup := List.nodup_cons.mpr ⟨hv, hvnd⟩
          obtain ⟨out, hout⟩ := bfs_total (m := m) (stdFuel m) (curr :: v) [curr] 1 hnd1
            (by
              intro y hy
              have : y = curr := by simpa using hy
              subst this
              exact List.mem_cons_self y v)
            (by
              have h1 : (allIds m \ (curr :: v).toFinset).card ≤ (allIds m).card :=
                Finset.card_le_card (Finset.sdiff_subset)
              unfold stdFuel
              simp only [List.length_singleton]
              omega)
          cases out with
          | none => exact ⟨none, by simp [checkAux, hv, hl, hne, hout]⟩
          | some r =>
            obtain ⟨v', s⟩ := r
            have hv'nd : v'.Nodup := ((bfs_book (stdFuel m) (curr :: v) [curr] 1 v' s hout).2.1) hnd1
            obtain ⟨out2, hout2⟩ := ih v' (comps + 1)
              (if 500 < s then reports ++ [s] else reports)
              (sizes ++ [s]) (clists ++ [v'.take (v'.length - v.length)]) hv'nd
            exact ⟨out2, by rw [checkAux_root hv hl hne hout]; exact hout2⟩

/-- Claim C8 (confirmed).  The analyzer terminates on every finite graph: with
the fuel `stdFuel` the BFS always delivers a verdict (a result, or the
modelled panic on a malformed map, but never fuel exhaustion), and during one
component traversal each point is visited at most once — once marked visited
(placed on the visited list) a point is never enqueued, so the visited list of
a completed traversal has no duplicates. -/
theorem c8_terminates_and_visits_once :
    (∀ mp : Map, ∃ out, check_connectivity mp = some out) ∧
    (∀ (m : List (Int × NodeInfo)) (r : Int) (v : List Int) (s : Int),
      componentBFS m r = some (some (v, s)) → v.Nodup) := by
  constructor
  · intro mp
    obtain ⟨out, hout⟩ := check_total (m := mp.nodes) mp.nodes [] 0 [] [] [] List.nodup_nil
    exact ⟨out.map (fun r => (r.1, r.2.1)), by unfold check_connectivity checkFull; rw [hout]; rfl⟩
  · intro m r v s h
    exact ((bfs_book (stdFuel m) [r] [r] 1 v s h).2.1) (List.nodup_singleton r)

/-- Witness for `c8_terminates_and_visits_once`: on the single-edge graph the
component traversal from `0` returns the duplicate-free visited list `[1, 0]`. -/
theorem c8_terminates_and_visits_once_witness :
    componentBFS edgeNodes 0 = some (some ([1, 0], 3)) ∧ ([1, 0] : List Int).Nodup :=
  ⟨by decide, c8_terminates_and_visits_once.2 edgeNodes 0 [1, 0] 3 (by decide)⟩

/-! Lemmas about pass 3: `pushReach` only appends to one neighbour list. -/

theorem pushReach_lookup {x : Int} :
    ∀ {m m' : List (Int × NodeInfo)} {k : Int}, pushReach m k x = some m' →
    lookupId k m' = (lookupId k m).map
        (fun i => { i with reachable_nodes := i.reachable_nodes ++ [x] }) ∧
      ∀ z, z ≠ k → lookupId z m' = lookupId z m := by
  intro m
  induction m with
  | nil => intro m' k h; simp [pushReach] at h
  | cons p t ih =>
    intro m' k h
    obtain ⟨a, info⟩ := p
    by_cases hak : a = k
    · subst hak
      rw [show pushReach ((a, info) :: t) a x =
          some ((a, { info with reachable_nodes := info.reachable_nodes ++ [x] }) :: t) by
        simp [pushReach]] at h
      obtain rfl : ((a, { info with reachable_nodes := info.reachable_nodes ++ [x] }) :: t) = m' :=
        Option.some.inj h
      constructor
      · simp [lookupId]
      · intro z hz
        have haz : ¬ a = z := fun hc => hz hc.symm
        simp [lookupId, haz]
    · rw [show pushReach ((a, info) :: t) k x =
          (pushReach t k x).map (fun t' => (a, info) :: t') by simp [pushReach, hak]] at h
      cases hp : pushReach t k x with
      | none => rw [hp] at h; simp at h
      | some t' =>
        rw [hp] at h
        obtain rfl : (a, info) :: t' = m' := Option.some.inj h
        obtain ⟨ih1, ih2⟩ := ih hp
        constructor
        · simp [lookupId, hak, ih1]
        · intro z hz
          by_cases haz : a = z
          · simp [lookupId, haz]
          · simp [lookupId, haz, ih2 z hz]

theorem pushReach_key_mem {x : Int} :
    ∀ {m m' : List (Int × NodeInfo)} {k : Int}, pushReach m k x = some m' →
    (lookupId k m).isSome := by
  intro m
  induction m with
  | nil => intro m' k h; simp [pushReach] at h
  | cons p t ih =>
    intro m' k h
    obtain ⟨a, info⟩ := p
    by_cases hak : a = k
    · simp [lookupId, hak]
    · rw [show pushReach ((a, info) :: t) k x =
          (pushReach t k x).map (fun t' => (a, info) :: t') by simp [pushReach, hak]] at h
      cases hp : pushReach t k x with
      | none => rw [hp] at h; simp at h
      | some t' => simpa [lookupId, hak] using ih hp

theorem pushReach_keys_iff {x : Int} {m m' : List (Int × NodeInfo)} {k : Int}
    (h : pushReach m k x = some m') :
    ∀ z, (lookupId z m').isSome ↔ (lookupId z m).isSome := by
  intro z
  obtain ⟨h1, h2⟩ := pushReach_lookup h
  by_cases hz : z = k
  · subst hz; rw [h1]; simp
  · rw [h2 z hz]

theorem pushReach_mono {x : Int} {m m' : List (Int × NodeInfo)} {k : Int}
    (h : pushReach m k x = some m') {z y : Int} (hy : y ∈ reachOf m z) : y ∈ reachOf m' z := by
  obtain ⟨h1, h2⟩ := pushReach_lookup h
  by_cases hz : z = k
  · subst hz
    unfold reachOf at hy ⊢
    cases hl : lookupId z m with
    | none => rw [hl] at hy; simp at hy
    | some i =>
      rw [hl] at hy
      rw [h1, hl]
      simp
      exact Or.inl hy
  · unfold reachOf at hy ⊢
    rw [h2 z hz]
    exact hy

theorem pushReach_adds {x : Int} {m m' : List (Int × NodeInfo)} {k : Int}
    (h : pushReach m k x = some m') : x ∈ reachOf m' k := by
  obtain ⟨h1, -⟩ := pushReach_lookup h
  have hs := pushReach_key_mem h
  unfold reachOf
  cases hl : lookupId k m with
  | none => rw [hl] at hs; simp at hs
  | some i =>
    rw [h1, hl]
    simp

/-! Lemmas about `linkWay`. -/

theorem linkWay_step {m m1 m2 : List (Int × NodeInfo)} {a b : Int} {t : List Int}
    (h1 : pushReach m a b = some m1) (h2 : pushReach m1 b a = some m2) :
    linkWay m (a :: b :: t) = linkWay m2 (b :: t) := by
  simp [linkWay, h1, h2]

theorem linkWay_err1 {m : List (Int × NodeInfo)} {a b : Int} {t : List Int}
    (h1 : pushReach m a b = none) :
    linkWay m (a :: b :: t) = .error .dangling := by
  simp [linkWay, h1]

theorem linkWay_err2 {m m1 : List (Int × NodeInfo)} {a b : Int} {t : List Int}
    (h1 : pushReach m a b = some m1) (h2 : pushReach m1 b a = none) :
    linkWay m (a :: b :: t) = .error .dangling := by
  simp [linkWay, h1, h2]

theorem linkWay_keys :
    ∀ (l : List Int) {m m' : List (Int × NodeInfo)}, linkWay m l = .ok m' →
    ∀ z, (lookupId z m').isSome ↔ (lookupId z m).isSome := by
  intro l
  induction l with
  | nil => intro m m' h; simp [linkWay] at h
  | cons a l' ih =>
    intro m m' h
    cases l' with
    | nil =>
      obtain rfl : m = m' := by
        rw [show linkWay m [a] = .ok m from rfl] at h
        injection h
      intro z; rfl
    | cons b t =>
      cases h1 : pushReach m a b with
      | none => rw [linkWay_err1 h1] at h; simp at h
      | some m1 =>
        cases h2 : pushReach m1 b a with
        | none => rw [linkWay_err2 h1 h2] at h; simp at h
        | some m2 =>
          rw [linkWay_step h1 h2] at h
          intro z
          rw [ih h z, pushReach_keys_iff h2 z, pushReach_keys_iff h1 z]

theorem linkWay_mono :
    ∀ (l : List Int) {m m' : List (Int × NodeInfo)}, linkWay m l = .ok m' →
    ∀ z y, y ∈ reachOf m z → y ∈ reachOf m' z := by
  intro l
  induction l with
  | nil => intro m m' h; simp [linkWay] at h
  | cons a l' ih =>
    intro m m' h
    cases l' with
    | nil =>
      obtain rfl : m = m' := by
        rw [show linkWay m [a] = .ok m from rfl] at h
        injection h
      intro z y hy; exact hy
    | cons b t =>
      cases h1 : pushReach m a b with
      | none => rw [linkWay_err1 h1] at h; simp at h
      | some m1 =>
        cases h2 : pushReach m1 b a with
        | none => rw [linkWay_err2 h1 h2] at h; simp at h
        | some m2 =>
          rw [linkWay_step h1 h2] at h
          intro z y hy
          exact ih h z y (pushReach_mono h2 (pushReach_mono h1 hy))

theorem linkWay_adj :
    ∀ (l : List Int) {m m' : List (Int × NodeInfo)}, linkWay m l = .ok m' →
    ∀ i (h : i + 1 < l.length),
      l.get ⟨i + 1, h⟩ ∈ reachOf m' (l.get ⟨i, Nat.lt_of_succ_lt h⟩) ∧
      l.get ⟨i, Nat.lt_of_succ_lt h⟩ ∈ reachOf m' (l.get ⟨i + 1, h⟩) := by
  intro l
  induction l with
  | nil => intro m m' h i hi; simp at hi
  | cons a l' ih =>
    intro m m' h i hi
    cases l' with
    | nil => simp at hi
    | cons b t =>
      cases h1 : pushReach m a b with
      | none => rw [linkWay_err1 h1] at h; simp at h
      | some m1 =>
        cases h2 : pushReach m1 b a with
        | none => rw [linkWay_err2 h1 h2] at h; simp at h
        | some m2 =>
          rw [linkWay_step h1 h2] at h
          cases i with
          | zero =>
            constructor
            · exact linkWay_mono _ h _ _ (pushReach_mono h2 (pushReach_adds h1))
            · exact linkWay_mono _ h _ _ (pushReach_adds h2)
          | succ j =>
            have hj : j + 1 < (b :: t).length := by
              simp at hi
              simpa using hi
            exact ih h j hj

theorem linkWay_mem_keys :
    ∀ (l : List Int) {m m' : List (Int × NodeInfo)}, linkWay m l = .ok m' →
    2 ≤ l.length → ∀ x ∈ l, (lookupId x m).isSome := by
  intro l
  induction l with
  | nil => intro m m' h hl; simp at hl
  | cons a l' ih =>
    intro m m' h hl
    cases l' with
    | nil => simp at hl
    | cons b t =>
      cases h1 : pushReach m a b with
      | none => rw [linkWay_err1 h1] at h; simp at h
      | some m1 =>
        cases h2 : pushReach m1 b a with
        | none => rw [linkWay_err2 h1 h2] at h; simp at h
        | some m2 =>
          rw [linkWay_step h1 h2] at h
          intro x hx
          rcases List.mem_cons.mp hx with rfl | hx'
          · exact pushReach_key_mem h1
          · cases t with
            | nil =>
              have hxb : x = b := by simpa using hx'
              subst hxb
              exact (pushReach_keys_iff h1 x).mp (pushReach_key_mem h2)
            | cons c t' =>
              have := ih h (by simp) x hx'
              exact (pushReach_keys_iff h1 x).mp ((pushReach_keys_iff h2 x).mp this)

theorem insertId_lookup {β : Type} (k k' : Int) (v : β) :
    ∀ (l : List (Int × β)),
    lookupId k (insertId k' v l) = if k' = k then some v else lookupId k l := by
  intro l
  induction l with
  | nil => simp [insertId, lookupId]
  | cons p t ih =>
    obtain ⟨a, b⟩ := p
    by_cases hak : a = k'
    · subst hak
      rw [show insertId a v ((a, b) :: t) = (a, v) :: t by simp [insertId]]
      by_cases hk : a = k
      · simp [lookupId, hk]
      · simp [lookupId, hk]
    · rw [show insertId k' v ((a, b) :: t) = (a, b) :: insertId k' v t by simp [insertId, hak]]
      by_cases hk : a = k
      · subst hk
        have : ¬ k' = a := fun hc => hak hc.symm
        simp [lookupId, this]
      · simp [lookupId, hk, ih]

/-! Step lemmas and invariants of pass 3. -/

theorem pass3_step_none {n : List (Int × NodeInfo)} {w : List (Int × WayInfo)}
    {objs : List (Option OsmObj)} :
    pass3 n w (none :: objs) = .error .decode := rfl

theorem pass3_step_node {n : List (Int × NodeInfo)} {w : List (Int × WayInfo)}
    {objs : List (Option OsmObj)} {id la lo : Int} {t : Tags} :
    pass3 n w (some (.node id t la lo) :: objs) = pass3 n w objs := rfl

theorem pass3_step_other {n : List (Int × NodeInfo)} {w : List (Int × WayInfo)}
    {objs : List (Option OsmObj)} :
    pass3 n w (some .other :: objs) = pass3 n w objs := rfl

theorem pass3_step_way_ok {n n1 : List (Int × NodeInfo)} {w : List (Int × WayInfo)}
    {objs : List (Option OsmObj)} {id : Int} {t : Tags} {ns : List Int}
    (hhw : is_highway t = true) (hlw : linkWay n ns = .ok n1) :
    pass3 n w (some (.way id t ns) :: objs) = pass3 n1 (insertId id ⟨t, ns⟩ w) objs := by
  simp [pass3, hhw, hlw]

theorem pass3_step_way_skip {n : List (Int × NodeInfo)} {w : List (Int × WayInfo)}
    {objs : List (Option OsmObj)} {id : Int} {t : Tags} {ns : List Int}
    (hhw : is_highway t = false) :
    pass3 n w (some (.way id t ns) :: objs) = pass3 n w objs := by
  simp [pass3, hhw]

theorem pass3_step_way_err {n : List (Int × NodeInfo)} {w : List (Int × WayInfo)}
    {objs : List (Option OsmObj)} {id : Int} {t : Tags} {ns : List Int} {e : LoadError}
    (hhw : is_highway t = true) (hlw : linkWay n ns = .error e) :
    pass3 n w (some (.way id t ns) :: objs) = .error e := by
  simp [pass3, hhw, hlw]

theorem pass3_keys :
    ∀ (objs : List (Option OsmObj)) {n : List (Int × NodeInfo)} {w : List (Int × WayInfo)}
    {n' : List (Int × NodeInfo)} {w' : List (Int × WayInfo)},
    pass3 n w objs = .ok (n', w') →
    ∀ z, (lookupId z n').isSome ↔ (lookupId z n).isSome := by
  intro objs
  induction objs with
  | nil =>
    intro n w n' w' h z
    obtain ⟨rfl, rfl⟩ : n = n' ∧ w = w' := by
      rw [show pass3 n w [] = .ok (n, w) from rfl] at h
      have := Except.ok.inj h
      exact ⟨congrArg Prod.fst this, congrArg Prod.snd this⟩
    rfl
  | cons o rest ih =>
    intro n w n' w' h z
    cases o with
    | none => rw [pass3_step_none] at h; simp at h
    | some o =>
      cases o with
      | node id t la lo => rw [pass3_step_node] at h; exact ih h z
      | other => rw [pass3_step_other] at h; exact ih h z
      | way id t ns =>
        cases hhw : is_highway t with
        | false => rw [pass3_step_way_skip hhw] at h; exact ih h z
        | true =>
          cases hlw : linkWay n ns with
          | error e => rw [pass3_step_way_err hhw hlw] at h; simp at h
          | ok n1 =>
            rw [pass3_step_way_ok hhw hlw] at h
            rw [ih h z, linkWay_keys ns hlw z]

theorem pass3_mono :
    ∀ (objs : List (Option OsmObj)) {n : List (Int × NodeInfo)} {w : List (Int × WayInfo)}
    {n' : List (Int × NodeInfo)} {w' : List (Int × WayInfo)},
    pass3 n w objs = .ok (n', w') →
    ∀ z y, y ∈ reachOf n z → y ∈ reachOf n' z := by
  intro objs
  induction objs with
  | nil =>
    intro n w n' w' h z y hy
    obtain ⟨rfl, -⟩ : n = n' ∧ w = w' := by
      rw [show pass3 n w [] = .ok (n, w) from rfl] at h
      have := Except.ok.inj h
      exact ⟨congrArg Prod.fst this, congrArg Prod.snd this⟩
    exact hy
  | cons o rest ih =>
    intro n w n' w' h z y hy
    cases o with
    | none => rw [pass3_step_none] at h; simp at h
    | some o =>
      cases o with
      | node id t la lo => rw [pass3_step_node] at h; exact ih h z y hy
      | other => rw [pass3_step_other] at h; exact ih h z y hy
      | way id t ns =>
        cases hhw : is_highway t with
        | false => rw [pass3_step_way_skip hhw] at h; exact ih h z y hy
        | true =>
          cases hlw : linkWay n ns with
          | error e => rw [pass3_step_way_err hhw hlw] at h; simp at h
          | ok n1 =>
            rw [pass3_step_way_ok hhw hlw] at h
            exact ih h z y (linkWay_mono ns hlw z y hy)

theorem pass3_adj :
    ∀ (objs : List (Option OsmObj)) {n : List (Int × NodeInfo)} {w : List (Int × WayInfo)}
    {n' : List (Int × NodeInfo)} {w' : List (Int × WayInfo)},
    pass3 n w objs = .ok (n', w') →
    ∀ id t ns, some (OsmObj.way id t ns) ∈ objs → is_highway t = true →
    ∀ i (hi : i + 1 < ns.length),
      ns.get ⟨i + 1, hi⟩ ∈ reachOf n' (ns.get ⟨i, Nat.lt_of_succ_lt hi⟩) ∧
      ns.get ⟨i, Nat.lt_of_succ_lt hi⟩ ∈ reachOf n' (ns.get ⟨i + 1, hi⟩) := by
  intro objs
  induction objs with
  | nil => intro n w n' w' h id t ns hmem; simp at hmem
  | cons o rest ih =>
    intro n w n' w' h id t ns hmem hhw i hi
    cases o with
    | none => rw [pass3_step_none] at h; simp at h
    | some o =>
      have hmem' := List.mem_cons.mp hmem
      cases o with
      | node id0 t0 la lo =>
        rw [pass3_step_node] at h
        rcases hmem' with he | hr
        · simp at he
        · exact ih h id t ns hr hhw i hi
      | other =>
        rw [pass3_step_other] at h
        rcases hmem' with he | hr
        · simp at he
        · exact ih h id t ns hr hhw i hi
      | way id0 t0 ns0 =>
        rcases hmem' with he | hr
        · simp only [Option.some.injEq, OsmObj.way.injEq] at he
          obtain ⟨rfl, rfl, rfl⟩ := he
          cases hlw : linkWay n ns with
          | error e => rw [pass3_step_way_err hhw hlw] at h; simp at h
          | ok n1 =>
            rw [pass3_step_way_ok hhw hlw] at h
            obtain ⟨ha, hb⟩ := linkWay_adj ns hlw i hi
            exact ⟨pass3_mono rest h _ _ ha, pass3_mono rest h _ _ hb⟩
        · cases hhw0 : is_highway t0 with
          | false =>
            rw [pass3_step_way_skip hhw0] at h
            exact ih h id t ns hr hhw i hi
          | true =>
            cases hlw : linkWay n ns0 with
            | error e => rw [pass3_step_way_err hhw0 hlw] at h; simp at h
            | ok n1 =>
              rw [pass3_step_way_ok hhw0 hlw] at h
              exact ih h id t ns hr hhw i hi

theorem pass3_ways :
    ∀ (objs : List (Option OsmObj)) {n : List (Int × NodeInfo)} {w : List (Int × WayInfo)}
    {n' : List (Int × NodeInfo)} {w' : List (Int × WayInfo)},
    pass3 n w objs = .ok (n', w') →
    ∀ wid wi, lookupId wid w' = some wi →
      lookupId wid w = some wi ∨
        (2 ≤ wi.nodes.length → ∀ x ∈ wi.nodes, (lookupId x n').isSome) := by
  intro objs
  induction objs with
  | nil =>
    intro n w n' w' h wid wi hwi
    obtain ⟨-, rfl⟩ : n = n' ∧ w = w' := by
      rw [show pass3 n w [] = .ok (n, w) from rfl] at h
      have := Except.ok.inj h
      exact ⟨congrArg Prod.fst this, congrArg Prod.snd this⟩
    exact Or.inl hwi
  | cons o rest ih =>
    intro n w n' w' h wid wi hwi
    cases o with
    | none => rw [pass3_step_none] at h; simp at h
    | some o =>
      cases o with
      | node id0 t0 la lo => rw [pass3_step_node] at h; exact ih h wid wi hwi
      | other => rw [pass3_step_other] at h; exact ih h wid wi hwi
      | way id0 t0 ns0 =>
        cases hhw0 : is_highway t0 with
        | false => rw [pass3_step_way_skip hhw0] at h; exact ih h wid wi hwi
        | true =>
          cases hlw : linkWay n ns0 with
          | error e => rw [pass3_step_way_err hhw0 hlw] at h; simp at h
          | ok n1 =>
            rw [pass3_step_way_ok hhw0 hlw] at h
            rcases ih h wid wi hwi with hin | hp
            · rw [insertId_lookup] at hin
              by_cases hid : id0 = wid
              · rw [if_pos hid] at hin
                obtain rfl : (⟨t0, ns0⟩ : WayInfo) = wi := Option.some.inj hin
                refine Or.inr (fun hlen x hx => ?_)
                have hx' := linkWay_mem_keys ns0 hlw hlen x hx
                exact (pass3_keys rest h x).mpr ((linkWay_keys ns0 hlw x).mpr hx')
              · rw [if_neg hid] at hin
                exact Or.inl hin
            · exact Or.inr hp

theorem pass3_accepted_nonempty :
    ∀ (objs : List (Option OsmObj)) {n : List (Int × NodeInfo)} {w : List (Int × WayInfo)}
    {n' : List (Int × NodeInfo)} {w' : List (Int × WayInfo)},
    pass3 n w objs = .ok (n', w') →
    ∀ id t ns, some (OsmObj.way id t ns) ∈ objs → is_highway t = true → ns ≠ [] := by
  intro objs
  induction objs with
  | nil => intro n w n' w' h id t ns hmem; simp at hmem
  | cons o rest ih =>
    intro n w n' w' h id t ns hmem hhw
    cases o with
    | none => rw [pass3_step_none] at h; simp at h
    | some o =>
      have hmem' := List.mem_cons.mp hmem
      cases o with
      | node id0 t0 la lo =>
        rw [pass3_step_node] at h
        rcases hmem' with he | hr
        · simp at he
        · exact ih h id t ns hr hhw
      | other =>
        rw [pass3_step_other] at h
        rcases hmem' with he | hr
        · simp at he
        · exact ih h id t ns hr hhw
      | way id0 t0 ns0 =>
        rcases hmem' with he | hr
        · simp only [Option.some.injEq, OsmObj.way.injEq] at he
          obtain ⟨rfl, rfl, rfl⟩ := he
          cases hlw : linkWay n ns with
          | error e => rw [pass3_step_way_err hhw hlw] at h; simp at h
          | ok n1 =>
            intro hns
            subst hns
            simp [linkWay] at hlw
        · cases hhw0 : is_highway t0 with
          | false =>
            rw [pass3_step_way_skip hhw0] at h
            exact ih h id t ns hr hhw
          | true =>
            cases hlw : linkWay n ns0 with
            | error e => rw [pass3_step_way_err hhw0 hlw] at h; simp at h
            | ok n1 =>
              rw [pass3_step_way_ok hhw0 hlw] at h
              exact ih h id t ns hr hhw

/-- Destructs a successful `load` into its three successful passes. -/
theorem load_ok_elim {src : Source} {g : Map} (h : load src = .ok g) :
    ∃ used nodes2, pass1 src.objs = .ok used ∧ src.rewindable = true ∧
      pass2 used src.objs = .ok nodes2 ∧ pass3 nodes2 [] src.objs = .ok (g.nodes, g.ways) := by
  unfold load at h
  cases h1 : pass1 src.objs with
  | error e => rw [h1] at h; simp at h
  | ok used =>
    rw [h1] at h
    dsimp only at h
    cases hr : src.rewindable with
    | false => rw [hr] at h; simp at h
    | true =>
      rw [hr] at h
      simp only [if_true] at h
      cases h2 : pass2 used src.objs with
      | error e => rw [h2] at h; simp at h
      | ok nodes2 =>
        rw [h2] at h
        dsimp only at h
        cases h3 : pass3 nodes2 [] src.objs with
        | error e => rw [h3] at h; simp at h
        | ok nw =>
          rw [h3] at h
          dsimp only at h
          obtain rfl : Map.mk nw.1 nw.2 = g := Except.ok.inj h
          exact ⟨used, nodes2, rfl, rfl, h2, h3⟩

/-! Characterizations of pass 1 and pass 2. -/

theorem pass1_step_none {acc : Finset Int} {rest : List (Option OsmObj)} :
    pass1Aux acc (none :: rest) = .error .decode := rfl

theorem pass1_step_node {acc : Finset Int} {rest : List (Option OsmObj)}
    {id la lo : Int} {t : Tags} :
    pass1Aux acc (some (.node id t la lo) :: rest) = pass1Aux acc rest := rfl

theorem pass1_step_other {acc : Finset Int} {rest : List (Option OsmObj)} :
    pass1Aux acc (some .other :: rest) = pass1Aux acc rest := rfl

theorem pass1_step_way_acc {acc : Finset Int} {rest : List (Option OsmObj)}
    {id : Int} {t : Tags} {ns : List Int} (hhw : is_highway t = true) :
    pass1Aux acc (some (.way id t ns) :: rest) =
      pass1Aux (ns.foldl (fun s i => insert i s) acc) rest := by
  simp [pass1Aux, hhw]

theorem pass1_step_way_skip {acc : Finset Int} {rest : List (Option OsmObj)}
    {id : Int} {t : Tags} {ns : List Int} (hhw : is_highway t = false) :
    pass1Aux acc (some (.way id t ns) :: rest) = pass1Aux acc rest := by
  simp [pass1Aux, hhw]

theorem mem_foldl_insert :
    ∀ (ns : List Int) (acc : Finset Int) (k : Int),
    k ∈ ns.foldl (fun s i => insert i s) acc ↔ k ∈ acc ∨ k ∈ ns := by
  intro ns
  induction ns with
  | nil => intro acc k; simp
  | cons a t ih =>
    intro acc k
    rw [List.foldl_cons, ih]
    simp [Finset.mem_insert]
    tauto

theorem pass1_char :
    ∀ (objs : List (Option OsmObj)) (acc used : Finset Int),
    pass1Aux acc objs = .ok used →
    ∀ k, k ∈ used ↔ k ∈ acc ∨ ∃ id t ns, some (OsmObj.way id t ns) ∈ objs ∧
        is_highway t = true ∧ k ∈ ns := by
  intro objs
  induction objs with
  | nil =>
    intro acc used h k
    obtain rfl : acc = used := by
      rw [show pass1Aux acc [] = .ok acc from rfl] at h
      exact Except.ok.inj h
    simp
  | cons o rest ih =>
    intro acc used h k
    cases o with
    | none => rw [pass1_step_none] at h; simp at h
    | some o =>
      cases o with
      | node id0 t0 la0 lo0 =>
        rw [pass1_step_node] at h
        rw [ih acc used h k]
        constructor
        · rintro (ha | ⟨id, t, ns, hm, hw, hk⟩)
          · exact Or.inl ha
          · exact Or.inr ⟨id, t, ns, List.mem_cons_of_mem _ hm, hw, hk⟩
        · rintro (ha | ⟨id, t, ns, hm, hw, hk⟩)
          · exact Or.inl ha
          · rcases List.mem_cons.mp hm with he | hr
            · simp at he
            · exact Or.inr ⟨id, t, ns, hr, hw, hk⟩
      | other =>
        rw [pass1_step_other] at h
        rw [ih acc used h k]
        constructor
        · rintro (ha | ⟨id, t, ns, hm, hw, hk⟩)
          · exact Or.inl ha
          · exact Or.inr ⟨id, t, ns, List.mem_cons_of_mem _ hm, hw, hk⟩
        · rintro (ha | ⟨id, t, ns, hm, hw, hk⟩)
          · exact Or.inl ha
          · rcases List.mem_cons.mp hm with he | hr
            · simp at he
            · exact Or.inr ⟨id, t, ns, hr, hw, hk⟩
      | way id0 t0 ns0 =>
        cases hhw0 : is_highway t0 with
        | true =>
          rw [pass1_step_way_acc hhw0] at h
          rw [ih _ used h k, mem_foldl_insert]
          constructor
          · rintro ((ha | hns) | ⟨id, t, ns, hm, hw, hk⟩)
            · exact Or.inl ha
            · exact Or.inr ⟨id0, t0, ns0, List.mem_cons_self _ _, hhw0, hns⟩
            · exact Or.inr ⟨id, t, ns, List.mem_cons_of_mem _ hm, hw, hk⟩
          · rintro (ha | ⟨id, t, ns, hm, hw, hk⟩)
            · exact Or.inl (Or.inl ha)
            · rcases List.mem_cons.mp hm with he | hr
              · simp only [Option.some.injEq, OsmObj.way.injEq] at he
                obtain ⟨rfl, rfl, rfl⟩ := he
                exact Or.inl (Or.inr hk)
              · exact Or.inr ⟨id, t, ns, hr, hw, hk⟩
        | false =>
          rw [pass1_step_way_skip hhw0] at h
          rw [ih acc used h k]
          constructor
          · rintro (ha | ⟨id, t, ns, hm, hw, hk⟩)
            · exact Or.inl ha
            · exact Or.inr ⟨id, t, ns, List.mem_cons_of_mem _ hm, hw, hk⟩
          · rintro (ha | ⟨id, t, ns, hm, hw, hk⟩)
            · exact Or.inl ha
            · rcases List.mem_cons.mp hm with he | hr
              · simp only [Option.some.injEq, OsmObj.way.injEq] at he
                obtain ⟨rfl, rfl, rfl⟩ := he
                rw [hhw0] at hw
                simp at hw
              · exact Or.inr ⟨id, t, ns, hr, hw, hk⟩

theorem pass2_step_none {used : Finset Int} {acc : List (Int × NodeInfo)}
    {rest : List (Option OsmObj)} :
    pass2Aux used acc (none :: rest) = .error .decode := rfl

theorem pass2_step_way {used : Finset Int} {acc : List (Int × NodeInfo)}
    {rest : List (Option OsmObj)} {id : Int} {t : Tags} {ns : List Int} :
    pass2Aux used acc (some (.way id t ns) :: rest) = pass2Aux used acc rest := rfl

theorem pass2_step_other {used : Finset Int} {acc : List (Int × NodeInfo)}
    {rest : List (Option OsmObj)} :
    pass2Aux used acc (some .other :: rest) = pass2Aux used acc rest := rfl

theorem pass2_step_node_in {used : Finset Int} {acc : List (Int × NodeInfo)}
    {rest : List (Option OsmObj)} {id la lo : Int} {t : Tags} (hin : id ∈ used) :
    pass2Aux used acc (some (.node id t la lo) :: rest) =
      pass2Aux used (insertId id ⟨t, la, lo, []⟩ acc) rest := by
  simp [pass2Aux, hin]

theorem pass2_step_node_out {used : Finset Int} {acc : List (Int × NodeInfo)}
    {rest : List (Option OsmObj)} {id la lo : Int} {t : Tags} (hout : id ∉ used) :
    pass2Aux used acc (some (.node id t la lo) :: rest) = pass2Aux used acc rest := by
  simp [pass2Aux, hout]

theorem pass2_char :
    ∀ (objs : List (Option OsmObj)) (used : Finset Int) (acc res : List (Int × NodeInfo)),
    pass2Aux used acc objs = .ok res →
    ∀ k, (lookupId k res).isSome ↔ (lookupId k acc).isSome ∨
        (k ∈ used ∧ ∃ t la lo, some (OsmObj.node k t la lo) ∈ objs) := by
  intro objs
  induction objs with
  | nil =>
    intro used acc res h k
    obtain rfl : acc = res := by
      rw [show pass2Aux used acc [] = .ok acc from rfl] at h
      exact Except.ok.inj h
    simp
  | cons o rest ih =>
    intro used acc res h k
    cases o with
    | none => rw [pass2_step_none] at h; simp at h
    | some o =>
      cases o with
      | way id0 t0 ns0 =>
        rw [pass2_step_way] at h
        rw [ih used acc res h k]
        constructor
        · rintro (ha | ⟨hu, t, la, lo, hm⟩)
          · exact Or.inl ha
          · exact Or.inr ⟨hu, t, la, lo, List.mem_cons_of_mem _ hm⟩
        · rintro (ha | ⟨hu, t, la, lo, hm⟩)
          · exact Or.inl ha
          · rcases List.mem_cons.mp hm with he | hr
            · simp at he
            · exact Or.inr ⟨hu, t, la, lo, hr⟩
      | other =>
        rw [pass2_step_other] at h
        rw [ih used acc res h k]
        constructor
        · rintro (ha | ⟨hu, t, la, lo, hm⟩)
          · exact Or.inl ha
          · exact Or.inr ⟨hu, t, la, lo, List.mem_cons_of_mem _ hm⟩
        · rintro (ha | ⟨hu, t, la, lo, hm⟩)
          · exact Or.inl ha
          · rcases List.mem_cons.mp hm with he | hr
            · simp at he
            · exact Or.inr ⟨hu, t, la, lo, hr⟩
      | node id0 t0 la0 lo0 =>
        by_cases hin : id0 ∈ used
        · rw [pass2_step_node_in hin] at h
          rw [ih used _ res h k, insertId_lookup]
          constructor
          · rintro (ha | ⟨hu, t, la, lo, hm⟩)
            · by_cases hik : id0 = k
              · subst hik
                exact Or.inr ⟨hin, t0, la0, lo0, List.mem_cons_self _ _⟩
              · rw [if_neg hik] at ha
                exact Or.inl ha
            · exact Or.inr ⟨hu, t, la, lo, List.mem_cons_of_mem _ hm⟩
          · rintro (ha | ⟨hu, t, la, lo, hm⟩)
            · by_cases hik : id0 = k
              · rw [if_pos hik]
                exact Or.inl (by simp)
              · rw [if_neg hik]
                exact Or.inl ha
            · rcases List.mem_cons.mp hm with he | hr
              · simp only [Option.some.injEq, OsmObj.node.injEq] at he
                obtain ⟨rfl, rfl, rfl, rfl⟩ := he
                rw [if_pos rfl]
                exact Or.inl (by simp)
              · exact Or.inr ⟨hu, t, la, lo, hr⟩
        · rw [pass2_step_node_out hin] at h
          rw [ih used acc res h k]
          constructor
          · rintro (ha | ⟨hu, t, la, lo, hm⟩)
            · exact Or.inl ha
            · exact Or.inr ⟨hu, t, la, lo, List.mem_cons_of_mem _ hm⟩
          · rintro (ha | ⟨hu, t, la, lo, hm⟩)
            · exact Or.inl ha
            · rcases List.mem_cons.mp hm with he | hr
              · simp only [Option.some.injEq, OsmObj.node.injEq] at he
                obtain ⟨rfl, rfl, rfl, rfl⟩ := he
                exact absurd hu hin
              · exact Or.inr ⟨hu, t, la, lo, hr⟩

/-- Decidable equality for `Except`, so that concrete load results can be
checked by `decide`. -/
instance {e a : Type} [DecidableEq e] [DecidableEq a] : DecidableEq (Except e a) := fun x y =>
  match x, y with
  | .error u, .error v =>
    if h : u = v then .isTrue (by rw [h]) else .isFalse (fun hc => h (Except.error.inj hc))
  | .ok u, .ok v =>
    if h : u = v then .isTrue (by rw [h]) else .isFalse (fun hc => h (Except.ok.inj hc))
  | .error _, .ok _ => .isFalse (fun hc => Except.noConfusion hc)
  | .ok _, .error _ => .isFalse (fun hc => Except.noConfusion hc)

/-! Concrete sources used by witnesses and counterexamples. -/

/-- A source whose only record is an accepted way with the single node `5`,
while no point record for `5` exists. -/
def srcSingleton : Source := ⟨[some (.way 1 [("highway", "x")] [5])], true⟩

/-- The graph `load` produces from `srcSingleton`: the way is retained, the
point mapping is empty. -/
def mSingleton : Map := ⟨[], [(1, ⟨[("highway", "x")], [5]⟩)]⟩

/-- A source with two point records `5`, `6` and one accepted way `5 – 6`. -/
def srcPair : Source :=
  ⟨[some (.node 5 [] 0 0), some (.node 6 [] 0 0),
    some (.way 1 [("highway", "x")] [5, 6])], true⟩

/-- The graph `load` produces from `srcPair`. -/
def mPair : Map :=
  ⟨[(5, ⟨[], 0, 0, [6]⟩), (6, ⟨[], 0, 0, [5]⟩)], [(1, ⟨[("highway", "x")], [5, 6]⟩)]⟩

/-- Claim C3 (confirmed).  Whenever the pass-3 adjacency build completes
(src/main.rs lines 257-278), every consecutive pair of nodes of every
filter-passing way in the stream is linked bidirectionally in the resulting
node map: each of the two nodes appears in the other's neighbour list. -/
theorem c3_consecutive_pairs_bidirectional :
    ∀ (objs : List (Option OsmObj)) (n : List (Int × NodeInfo)) (w : List (Int × WayInfo))
    (n' : List (Int × NodeInfo)) (w' : List (Int × WayInfo)),
    pass3 n w objs = .ok (n', w') →
    ∀ id t ns, some (OsmObj.way id t ns) ∈ objs → is_highway t = true →
    ∀ i (hi : i + 1 < ns.length),
      ns.get ⟨i + 1, hi⟩ ∈ reachOf n' (ns.get ⟨i, Nat.lt_of_succ_lt hi⟩) ∧
      ns.get ⟨i, Nat.lt_of_succ_lt hi⟩ ∈ reachOf n' (ns.get ⟨i + 1, hi⟩) := by
  intro objs n w n' w' h
  exact pass3_adj objs h

/-- Witness for `c3_consecutive_pairs_bidirectional` on `srcPair`'s pass 3:
the consecutive pair `(5, 6)` yields the two memberships. -/
theorem c3_consecutive_pairs_bidirectional_witness :
    pass3 [(5, ⟨[], 0, 0, []⟩), (6, ⟨[], 0, 0, []⟩)] []
        [some (.way 1 [("highway", "x")] [5, 6])] = .ok (mPair.nodes, mPair.ways) ∧
      ((6 : Int) ∈ reachOf mPair.nodes 5 ∧ (5 : Int) ∈ reachOf mPair.nodes 6) :=
  ⟨by decide,
    c3_consecutive_pairs_bidirectional [some (.way 1 [("highway", "x")] [5, 6])]
      [(5, ⟨[], 0, 0, []⟩), (6, ⟨[], 0, 0, []⟩)] [] mPair.nodes mPair.ways (by decide)
      1 [("highway", "x")] [5, 6] (by decide) (by decide) 0 (by norm_num)⟩

/-- Claim C4, amended.  After a successful three-pass load the point mapping
contains exactly those identifiers that appear in the point list of some
`highway`-tagged sequence AND occur as a point record in the source.  (The
original claim omitted the second conjunct; an identifier referenced by an
accepted sequence but lacking a point record is not a key.) -/
theorem c4_amended_point_mapping_exact :
    ∀ (src : Source) (g : Map), load src = .ok g →
    ∀ k, (lookupId k g.nodes).isSome ↔
      ((∃ id t ns, some (OsmObj.way id t ns) ∈ src.objs ∧ is_highway t = true ∧ k ∈ ns) ∧
        (∃ t la lo, some (OsmObj.node k t la lo) ∈ src.objs)) := by
  intro src g h k
  obtain ⟨used, nodes2, h1, -, h2, h3⟩ := load_ok_elim h
  rw [pass3_keys src.objs h3 k, pass2_char src.objs used [] nodes2 h2 k]
  have hused : k ∈ used ↔
      ∃ id t ns, some (OsmObj.way id t ns) ∈ src.objs ∧ is_highway t = true ∧ k ∈ ns := by
    have := pass1_char src.objs ∅ used h1 k
    simpa using this
  rw [hused]
  simp [lookupId]

/-- Witness for `c4_amended_point_mapping_exact` at `srcPair` and `k = 5`. -/
theorem c4_amended_point_mapping_exact_witness :
    load srcPair = .ok mPair ∧
      ((lookupId 5 mPair.nodes).isSome ↔
        ((∃ id t ns, some (OsmObj.way id t ns) ∈ srcPair.objs ∧ is_highway t = true ∧
            (5 : Int) ∈ ns) ∧
          (∃ t la lo, some (OsmObj.node 5 t la lo) ∈ srcPair.objs))) :=
  ⟨by decide, c4_amended_point_mapping_exact srcPair mPair (by decide) 5⟩

/-- Claim C4, counterexample.  In `srcSingleton` the identifier `5` appears in
the point list of an accepted sequence, the load succeeds, and yet `5` is not
a key of the point mapping, refuting the claim that the point mapping holds
every identifier appearing in an accepted sequence. -/
theorem c4_counterexample_referenced_id_missing :
    load srcSingleton = .ok mSingleton ∧
      (some (OsmObj.way 1 [("highway", "x")] [5]) ∈ srcSingleton.objs ∧
        is_highway [("highway", "x")] = true ∧ (5 : Int) ∈ ([5] : List Int)) ∧
      lookupId 5 mSingleton.nodes = none := by
  refine ⟨by decide, ⟨by decide, by decide, by decide⟩, by decide⟩

/-- Claim C7, amended.  After a successful load, every point identifier in the
point list of a retained sequence with at least two points is a key of the
point mapping.  (Sequences with a single point escape pass 3's unwrap, so the
original unrestricted claim is false.) -/
theorem c7_amended_retained_ways_closed :
    ∀ (src : Source) (g : Map), load src = .ok g →
    ∀ wid wi, lookupId wid g.ways = some wi → 2 ≤ wi.nodes.length →
    ∀ x ∈ wi.nodes, (lookupId x g.nodes).isSome := by
  intro src g h wid wi hwi hlen x hx
  obtain ⟨used, nodes2, -, -, -, h3⟩ := load_ok_elim h
  rcases pass3_ways src.objs h3 wid wi hwi with hin | hp
  · simp [lookupId] at hin
  · exact hp hlen x hx

/-- Witness for `c7_amended_retained_ways_closed` at `srcPair`: node `5` of
the retained two-node way is a key. -/
theorem c7_amended_retained_ways_closed_witness :
    load srcPair = .ok mPair ∧ (lookupId 5 mPair.nodes).isSome :=
  ⟨by decide, c7_amended_retained_ways_closed srcPair mPair (by decide) 1
    ⟨[("highway", "x")], [5, 6]⟩ (by decide) (by decide) 5 (by decide)⟩

/-- Claim C7, counterexample.  `load srcSingleton` succeeds and retains a
sequence whose point list contains `5`, yet `5` is not a key of the point
mapping: the stated invariant fails for single-point sequences. -/
theorem c7_counterexample_singleton_way_dangles :
    load srcSingleton = .ok mSingleton ∧
      lookupId 1 mSingleton.ways = some ⟨[("highway", "x")], [5]⟩ ∧
      (5 : Int) ∈ (WayInfo.mk [("highway", "x")] [5]).nodes ∧
      lookupId 5 mSingleton.nodes = none := by
  refine ⟨by decide, by decide, by decide, by decide⟩

/-- Claim C9 (confirmed).  Each load error kind is fatal: when `load` fails
with any error, `main` produces exactly that error and no analysis output
(first conjunct), and each of the three spec error kinds actually occurs:
a decode failure, a failed rewind, and a dangling node reference in pass 3
(remaining conjuncts). -/
theorem c9_load_errors_fatal :
    (∀ (src : Source) (e : LoadError), load src = .error e → mainRun src = .error e) ∧
      load ⟨[none], true⟩ = .error .decode ∧
      load ⟨[], false⟩ = .error .rewind ∧
      load ⟨[some (.way 1 [("highway", "x")] [5, 6])], true⟩ = .error .dangling := by
  refine ⟨?_, by decide, by decide, by decide⟩
  intro src e h
  unfold mainRun
  rw [h]

/-- Witness for `c9_load_errors_fatal`: the decode failure aborts `main`
before any analysis output. -/
theorem c9_load_errors_fatal_witness :
    mainRun ⟨[none], true⟩ = .error .decode :=
  c9_load_errors_fatal.1 ⟨[none], true⟩ .decode (by decide)

/-- Claim C10 (confirmed).  The load is total only when every filter-accepted
sequence has a nonempty point list: a successful load implies no accepted way
in the stream had an empty node list (an empty list makes pass 3 panic via
the `len() - 1` underflow / out-of-bounds index, modelled as
`LoadError.underflow`). -/
theorem c10_empty_accepted_way_panics :
    ∀ (src : Source) (g : Map), load src = .ok g →
    ∀ id t ns, some (OsmObj.way id t ns) ∈ src.objs → is_highway t = true → ns ≠ [] := by
  intro src g h id t ns hmem hhw
  obtain ⟨used, nodes2, -, -, -, h3⟩ := load_ok_elim h
  exact pass3_accepted_nonempty src.objs h3 id t ns hmem hhw

/-- Witness for `c10_empty_accepted_way_panics` at `srcPair`, together with a
direct run showing that an accepted empty way makes the load abort with the
underflow panic. -/
theorem c10_empty_accepted_way_panics_witness :
    load srcPair = .ok mPair ∧ ([5, 6] : List Int) ≠ [] ∧
      load ⟨[some (.way 1 [("highway", "x")] [])], true⟩ = .error .underflow :=
  ⟨by decide,
    c10_empty_accepted_way_panics srcPair mPair (by decide) 1 [("highway", "x")] [5, 6]
      (by decide) (by decide),
    by decide⟩

/-! Reachability over the adjacency lists, and the graph-side properties the
loader guarantees: every listed neighbour exists (`ClosedP`) and is listed
back (`SymmP`). -/

/-- One adjacency step. -/
def Step (m : List (Int × NodeInfo)) (x y : Int) : Prop :=
  y ∈ reachOf m x

/-- Reachability: the reflexive-transitive closure of `Step`. -/
def Reaches (m : List (Int × NodeInfo)) : Int → Int → Prop :=
  Relation.ReflTransGen (Step m)

/-- Every listed neighbour is a key of the map (propositional form). -/
def ClosedP (m : List (Int × NodeInfo)) : Prop :=
  ∀ x y, y ∈ reachOf m x → (lookupId y m).isSome

/-- Every listed neighbour lists the point back (propositional form). -/
def SymmP (m : List (Int × NodeInfo)) : Prop :=
  ∀ x y, y ∈ reachOf m x → x ∈ reachOf m y

/-- Decidable form of `ClosedP`, checked binding by binding. -/
def closedB (m : List (Int × NodeInfo)) : Bool :=
  m.all (fun p => p.2.reachable_nodes.all (fun y => (lookupId y m).isSome))

/-- Decidable form of `SymmP`, checked binding by binding. -/
def symmB (m : List (Int × NodeInfo)) : Bool :=
  m.all (fun p => p.2.reachable_nodes.all (fun y => p.1 ∈ reachOf m y))

theorem reachOf_eq_of_lookup {m : List (Int × NodeInfo)} {x : Int} {info : NodeInfo}
    (h : lookupId x m = some info) : reachOf m x = info.reachable_nodes := by
  unfold reachOf
  rw [h]

theorem reachOf_ne_nil_lookup {m : List (Int × NodeInfo)} {x : Int}
    (h : reachOf m x ≠ []) : ∃ info, lookupId x m = some info := by
  unfold reachOf at h
  cases hl : lookupId x m with
  | none => rw [hl] at h; simp at h
  | some info => exact ⟨info, rfl⟩

theorem closedB_closedP {m : List (Int × NodeInfo)} (h : closedB m = true) : ClosedP m := by
  intro x y hy
  obtain ⟨info, hl⟩ := reachOf_ne_nil_lookup (List.ne_nil_of_mem hy)
  rw [reachOf_eq_of_lookup hl] at hy
  unfold closedB at h
  rw [List.all_eq_true] at h
  have := h (x, info) (lookupId_mem hl)
  rw [List.all_eq_true] at this
  simpa using this y hy

theorem symmB_symmP {m : List (Int × NodeInfo)} (h : symmB m = true) : SymmP m := by
  intro x y hy
  obtain ⟨info, hl⟩ := reachOf_ne_nil_lookup (List.ne_nil_of_mem hy)
  rw [reachOf_eq_of_lookup hl] at hy
  unfold symmB at h
  rw [List.all_eq_true] at h
  have := h (x, info) (lookupId_mem hl)
  rw [List.all_eq_true] at this
  simpa using this y hy

/-- A step-closed set of points is closed under reachability. -/
theorem reaches_mem_of_closed_list {m : List (Int × NodeInfo)} {v : List Int}
    (hv : ∀ x ∈ v, ∀ y ∈ reachOf m x, y ∈ v) {x y : Int}
    (hx : x ∈ v) (h : Reaches m x y) : y ∈ v := by
  induction h with
  | refl => exact hx
  | tail h1 h2 ih => exact hv _ ih _ h2

/-- Under symmetric adjacency, reachability is symmetric. -/
theorem reaches_symm {m : List (Int × NodeInfo)} (hsym : SymmP m) {x y : Int}
    (h : Reaches m x y) : Reaches m y x := by
  induction h with
  | refl => exact Relation.ReflTransGen.refl
  | tail h1 h2 ih => exact Relation.ReflTransGen.head (hsym _ _ h2) ih

/-- Under closed adjacency, a reached point is the start or a key. -/
theorem reaches_key {m : List (Int × NodeInfo)} (hcl : ClosedP m) {x y : Int}
    (h : Reaches m x y) : y = x ∨ (lookupId y m).isSome := by
  induction h with
  | refl => exact Or.inl rfl
  | tail h1 h2 ih => exact Or.inr (hcl _ _ h2)

/-- Under symmetric adjacency, a reached point is the start or non-isolated. -/
theorem reaches_nonisolated {m : List (Int × NodeInfo)} (hsym : SymmP m) {x y : Int}
    (h : Reaches m x y) : y = x ∨ reachOf m y ≠ [] := by
  induction h with
  | refl => exact Or.inl rfl
  | tail h1 h2 ih => exact Or.inr (List.ne_nil_of_mem (hsym _ _ h2))

/-- The key set of the node map. -/
def keysFin (m : List (Int × NodeInfo)) : Finset Int :=
  (m.map Prod.fst).toFinset

theorem keysFin_subset_allIds (m : List (Int × NodeInfo)) : keysFin m ⊆ allIds m :=
  Finset.subset_union_left

/-- Full specification of the BFS loop on a closed map: it exits normally, the
visited list grows by a fresh block, stays within the keys, is step-closed on
exit, and consists of the old visited list plus points reachable from the
queue. -/
theorem bfs_reach_spec {m : List (Int × NodeInfo)} (hcl : ClosedP m) :
    ∀ (fuel : Nat) (v q : List Int) (s : Int),
    v.Nodup →
    (∀ x ∈ q, x ∈ v) →
    (∀ x ∈ v, (lookupId x m).isSome) →
    (∀ x ∈ v, x ∉ q → ∀ y ∈ reachOf m x, y ∈ v) →
    (keysFin m \ v.toFinset).card + q.length ≤ fuel →
    ∃ v' s', bfsAux m fuel v q s = some (some (v', s')) ∧
      (∃ w, v' = w ++ v) ∧
      (∀ x ∈ v', (lookupId x m).isSome) ∧
      (∀ x ∈ v', ∀ y ∈ reachOf m x, y ∈ v') ∧
      (∀ y ∈ v', y ∈ v ∨ ∃ x ∈ q, Reaches m x y) := by
  intro fuel
  induction fuel with
  | zero =>
    intro v q s hvnd hqv hvk hI hf
    cases q with
    | nil =>
      refine ⟨v, s, rfl, ⟨[], by simp⟩, hvk, ?_, fun y hy => Or.inl hy⟩
      intro x hx y hy
      exact hI x hx (by simp) y hy
    | cons x qt => simp at hf
  | succ f ih =>
    intro v q s hvnd hqv hvk hI hf
    cases q with
    | nil =>
      refine ⟨v, s, rfl, ⟨[], by simp⟩, hvk, ?_, fun y hy => Or.inl hy⟩
      intro x hx y hy
      exact hI x hx (by simp) y hy
    | cons x qt =>
      have hxv : x ∈ v := hqv x (List.mem_cons_self _ _)
      cases hl : lookupId x m with
      | none =>
        have := hvk x hxv
        rw [hl] at this
        simp at this
      | some info =>
        rw [bfsAux_step_some hl]
        have hreach : reachOf m x = info.reachable_nodes := reachOf_eq_of_lookup hl
        obtain ⟨w, hw1, hw2, hw3, hw4⟩ := enqueue_spec info.reachable_nodes v qt
        have hp1k : ∀ z ∈ (enqueueNeighbors v qt info.reachable_nodes).1,
            (lookupId z m).isSome := by
          intro z hz
          rw [hw1, List.mem_append] at hz
          rcases hz with hz | hz
          · exact hcl x z (by rw [hreach]; exact (hw3 z hz).1)
          · exact hvk z hz
        have hq'v : ∀ z ∈ (enqueueNeighbors v qt info.reachable_nodes).2,
            z ∈ (enqueueNeighbors v qt info.reachable_nodes).1 := by
          intro z hz
          rw [hw2, List.mem_append] at hz
          rw [hw1, List.mem_append]
          rcases hz with hz | hz
          · exact Or.inr (hqv z (List.mem_cons_of_mem _ hz))
          · exact Or.inl (List.mem_reverse.mp hz)
        have hI' : ∀ z ∈ (enqueueNeighbors v qt info.reachable_nodes).1,
            z ∉ (enqueueNeighbors v qt info.reachable_nodes).2 →
            ∀ y ∈ reachOf m z, y ∈ (enqueueNeighbors v qt info.reachable_nodes).1 := by
          intro z hz hznq y hy
          rw [hw1, List.mem_append] at hz
          rcases hz with hz | hz
          · exfalso
            apply hznq
            rw [hw2, List.mem_append]
            exact Or.inr (List.mem_reverse.mpr hz)
          · by_cases hzx : z = x
            · subst hzx
              rw [hreach] at hy
              rw [hw1, List.mem_append]
              rcases hw4 y hy with h' | h'
              · exact Or.inr h'
              · exact Or.inl h'
            · have hznqt : z ∉ qt := by
                intro hc
                apply hznq
                rw [hw2, List.mem_append]
                exact Or.inl hc
              have : z ∉ x :: qt := by
                rw [List.mem_cons]
                rintro (hc | hc)
                · exact hzx hc
                · exact hznqt hc
              have := hI z hz this y hy
              rw [hw1, List.mem_append]
              exact Or.inr this
        have hp1nd : (enqueueNeighbors v qt info.reachable_nodes).1.Nodup :=
          enqueue_nodup _ _ _ hvnd
        have hwnd : w.Nodup := by
          rw [hw1] at hp1nd
          exact (List.nodup_append.mp hp1nd).1
        have hwkeys : w.toFinset ⊆ keysFin m \ v.toFinset := by
          intro z hz
          rw [List.mem_toFinset] at hz
          rw [Finset.mem_sdiff]
          constructor
          · unfold keysFin
            rw [List.mem_toFinset, ← lookupId_isSome_iff]
            exact hcl x z (by rw [hreach]; exact (hw3 z hz).1)
          · rw [List.mem_toFinset]
            exact fun hc => (hw3 z hz).2 hc
        have hf' : (keysFin m \ (enqueueNeighbors v qt info.reachable_nodes).1.toFinset).card +
            (enqueueNeighbors v qt info.reachable_nodes).2.length ≤ f := by
          have hset : keysFin m \ (w ++ v).toFinset = (keysFin m \ v.toFinset) \ w.toFinset := by
            ext y
            simp only [Finset.mem_sdiff, List.toFinset_append, Finset.mem_union]
            tauto
          have hge : w.toFinset.card ≤ (keysFin m \ v.toFinset).card :=
            Finset.card_le_card hwkeys
          have hcards : ((keysFin m \ v.toFinset) \ w.toFinset).card =
              (keysFin m \ v.toFinset).card - w.toFinset.card :=
            Finset.card_sdiff hwkeys
          have hwlen : w.toFinset.card = w.length := List.toFinset_card_of_nodup hwnd
          rw [hw1, hset, hw2]
          simp only [List.length_append, List.length_reverse]
          rw [hcards, hwlen]
          simp at hf
          omega
        obtain ⟨v'', s'', hrun, ⟨w2, hww⟩, hk'', hcl'', hprov''⟩ :=
          ih (enqueueNeighbors v qt info.reachable_nodes).1
            (enqueueNeighbors v qt info.reachable_nodes).2 (s + 1) hp1nd hq'v hp1k hI' hf'
        refine ⟨v'', s'', hrun, ⟨w2 ++ w, by rw [hww, hw1]; simp⟩, hk'', hcl'', ?_⟩
        intro y hy
        rcases hprov'' y hy with hy' | ⟨z, hz, hr⟩
        · rw [hw1, List.mem_append] at hy'
          rcases hy' with hy' | hy'
          · refine Or.inr ⟨x, List.mem_cons_self _ _, Relation.ReflTransGen.single ?_⟩
            unfold Step
            rw [hreach]
            exact (hw3 y hy').1
          · exact Or.inl hy'
        · rw [hw2, List.mem_append] at hz
          rcases hz with hz | hz
          · exact Or.inr ⟨z, List.mem_cons_of_mem _ hz, hr⟩
          · refine Or.inr ⟨x, List.mem_cons_self _ _, Relation.ReflTransGen.trans
              (Relation.ReflTransGen.single ?_) hr⟩
            unfold Step
            rw [hreach]
            exact (hw3 z (List.mem_reverse.mp hz)).1

/-- Specification of one component traversal started at a fresh root `r` over
an already step-closed visited list `v`: the traversal succeeds, visits
exactly the points reachable from `r` (the fresh block `w`), and its final
size is `1 + |w|`. -/
theorem bfs_root_spec {m : List (Int × NodeInfo)} (hcl : ClosedP m) (hsym : SymmP m)
    {v : List Int} {r : Int} (hvnd : v.Nodup) (hrv : r ∉ v)
    (hrk : (lookupId r m).isSome)
    (hvk : ∀ x ∈ v, (lookupId x m).isSome)
    (hvcl : ∀ x ∈ v, ∀ y ∈ reachOf m x, y ∈ v) :
    ∃ v' s', bfsAux m (stdFuel m) (r :: v) [r] 1 = some (some (v', s')) ∧
      (∃ w, v' = w ++ v ∧ (s' : Int) = 1 + w.length ∧ (∀ y, y ∈ w ↔ Reaches m r y)) ∧
      v'.Nodup ∧
      (∀ x ∈ v', (lookupId x m).isSome) ∧
      (∀ x ∈ v', ∀ y ∈ reachOf m x, y ∈ v') := by
  have hnd1 : (r :: v).Nodup := List.nodup_cons.mpr ⟨hrv, hvnd⟩
  obtain ⟨v', s', hrun, ⟨W, hW⟩, hk', hcl', hprov'⟩ :=
    bfs_reach_spec hcl (stdFuel m) (r :: v) [r] 1 hnd1
      (by
        intro y hy
        have : y = r := by simpa using hy
        subst this
        exact List.mem_cons_self y v)
      (by
        intro x hx
        rcases List.mem_cons.mp hx with rfl | hx'
        · exact hrk
        · exact hvk x hx')
      (by
        intro z hz hznq y hy
        have hzr : z ≠ r := by
          intro hc
          subst hc
          exact hznq (by simp)
        have hzv : z ∈ v := by
          rcases List.mem_cons.mp hz with hc | hc
          · exact absurd hc hzr
          · exact hc
        exact List.mem_cons_of_mem _ (hvcl z hzv y hy))
      (by
        have h1 : (keysFin m \ (r :: v).toFinset).card ≤ (keysFin m).card :=
          Finset.card_le_card (Finset.sdiff_subset)
        have h2 : (keysFin m).card ≤ (allIds m).card :=
          Finset.card_le_card (keysFin_subset_allIds m)
        unfold stdFuel
        simp only [List.length_singleton]
        omega)
  obtain ⟨-, hndp, hsz⟩ := bfs_book (stdFuel m) (r :: v) [r] 1 v' s' hrun
  have hv'nd : v'.Nodup := hndp hnd1
  have hrv' : r ∈ v' := by
    rw [hW]
    exact List.mem_append.mpr (Or.inr (List.mem_cons_self _ _))
  refine ⟨v', s', hrun, ⟨W ++ [r], by rw [hW]; simp, ?_, ?_⟩, hv'nd, hk', hcl'⟩
  · simp at hsz ⊢
    rw [hW] at hsz
    simp at hsz
    omega
  · intro y
    constructor
    · intro hy
      rcases List.mem_append.mp hy with hy' | hy'
      · have hyv' : y ∈ v' := by
          rw [hW]
          exact List.mem_append.mpr (Or.inl hy')
        rcases hprov' y hyv' with hin | ⟨x, hx, hr⟩
        · exfalso
          rw [hW] at hv'nd
          rw [List.nodup_append] at hv'nd
          exact hv'nd.2.2 hy' hin
        · have : x = r := by simpa using hx
          subst this
          exact hr
      · have : y = r := by simpa using hy'
        subst this
        exact Relation.ReflTransGen.refl
    · intro hr
      have hyv' : y ∈ v' := reaches_mem_of_closed_list hcl' hrv' hr
      rw [hW] at hyv'
      rcases List.mem_append.mp hyv' with hy' | hy'
      · exact List.mem_append.mpr (Or.inl hy')
      · rcases List.mem_cons.mp hy' with rfl | hy''
        · exact List.mem_append.mpr (Or.inr (by simp))
        · exfalso
          have : Reaches m y r := reaches_symm hsym hr
          have : r ∈ v := reaches_mem_of_closed_list hvcl hy'' this
          exact hrv this

/-- The reachability class of a point. -/
def classSet (m : List (Int × NodeInfo)) (x : Int) : Set Int :=
  {y | Reaches m x y}

/-- Classes counted by the outer loop when it still has `keys` to scan and has
already visited `v`: the classes of unvisited non-isolated keys. -/
def rootClasses (m : List (Int × NodeInfo)) (keys : List Int) (v : List Int) :
    Set (Set Int) :=
  {C | ∃ x, x ∈ keys ∧ reachOf m x ≠ [] ∧ x ∉ v ∧ C = classSet m x}

theorem classSet_eq_of_reaches {m : List (Int × NodeInfo)} (hsym : SymmP m) {r x : Int}
    (h : Reaches m r x) : classSet m x = classSet m r := by
  ext y
  constructor
  · intro hy
    exact Relation.ReflTransGen.trans h hy
  · intro hy
    exact Relation.ReflTransGen.trans (reaches_symm hsym h) hy

theorem reaches_of_classSet_eq {m : List (Int × NodeInfo)} {r x : Int}
    (h : classSet m x = classSet m r) : Reaches m r x := by
  have hx : x ∈ classSet m x := Relation.ReflTransGen.refl
  rw [h] at hx
  exact hx

theorem rootClasses_finite (m : List (Int × NodeInfo)) (keys : List Int) (v : List Int) :
    (rootClasses m keys v).Finite := by
  refine Set.Finite.subset ((keys.finite_toSet).image (classSet m)) ?_
  rintro C ⟨x, hk, -, -, rfl⟩
  exact ⟨x, hk, rfl⟩

theorem take_len_append {α : Type} (w v : List α) :
    (w ++ v).take ((w ++ v).length - v.length) = w := by
  have h : (w ++ v).length - v.length = w.length := by simp
  rw [h, List.take_left]

/-- Full specification of the outer component-counting loop on a closed,
symmetric map: it succeeds; the ghost component lists form (a permutation of)
the block `w` of newly visited points; the final visited list `w ++ v` is
duplicate-free, step-closed, inside the keys, and consists of `v` together
with everything reachable from a non-isolated scanned key; the component
sizes minus one sum to `|w|`; and the number of newly counted components is
the number of distinct reachability classes of unvisited non-isolated scanned
keys. -/
theorem checkAux_spec {m : List (Int × NodeInfo)} (hcl : ClosedP m) (hsym : SymmP m) :
    ∀ (entries : List (Int × NodeInfo)) (v : List Int) (comps : Int)
    (reports sizes : List Int) (clists : List (List Int)),
    (∀ p ∈ entries, p.1 ∈ m.map Prod.fst) →
    v.Nodup →
    (∀ x ∈ v, (lookupId x m).isSome) →
    (∀ x ∈ v, ∀ y ∈ reachOf m x, y ∈ v) →
    (∀ x ∈ v, reachOf m x ≠ []) →
    ∃ (k : Nat) (dr ds : List Int) (dc : List (List Int)) (w : List Int),
      checkAux m entries v comps reports sizes clists =
        some (some (comps + (k : Int), reports ++ dr, sizes ++ ds, clists ++ dc)) ∧
      dc.flatten.Perm w ∧
      (w ++ v).Nodup ∧
      (∀ x ∈ w ++ v, (lookupId x m).isSome) ∧
      (∀ x ∈ w ++ v, ∀ y ∈ reachOf m x, y ∈ w ++ v) ∧
      (∀ x ∈ w ++ v, reachOf m x ≠ []) ∧
      (∀ y, y ∈ w ++ v ↔ y ∈ v ∨
        ∃ x, x ∈ entries.map Prod.fst ∧ reachOf m x ≠ [] ∧ Reaches m x y) ∧
      (ds.map (fun z => z - 1)).sum = (w.length : Int) ∧
      k = (rootClasses m (entries.map Prod.fst) v).ncard := by
  intro entries
  induction entries with
  | nil =>
    intro v comps reports sizes clists hent hvnd hvk hvcl hvni
    refine ⟨0, [], [], [], [], by simp [checkAux], by simp, by simpa using hvnd,
      by simpa using hvk, by simpa using hvcl, by simpa using hvni, ?_, by simp, ?_⟩
    · intro y
      simp
    · have : rootClasses m (([] : List (Int × NodeInfo)).map Prod.fst) v = ∅ := by
        ext C
        simp [rootClasses]
      rw [this, Set.ncard_empty]
  | cons p rest ih =>
    intro v comps reports sizes clists hent hvnd hvk hvcl hvni
    obtain ⟨curr, j⟩ := p
    have hcurrk : curr ∈ m.map Prod.fst := hent (curr, j) (List.mem_cons_self _ _)
    have hentr : ∀ p ∈ rest, p.1 ∈ m.map Prod.fst :=
      fun p hp => hent p (List.mem_cons_of_mem _ hp)
    by_cases hv : curr ∈ v
    · rw [checkAux_skip_visited hv]
      obtain ⟨k, dr, ds, dc, w, hrun, hperm, hnd, hk', hcl', hni', hiff, hsum, hkc⟩ :=
        ih v comps reports sizes clists hentr hvnd hvk hvcl hvni
      refine ⟨k, dr, ds, dc, w, hrun, hperm, hnd, hk', hcl', hni', ?_, hsum, ?_⟩
      · intro y
        rw [hiff y]
        constructor
        · rintro (hy | ⟨x, hx, hxni, hxr⟩)
          · exact Or.inl hy
          · exact Or.inr ⟨x, by rw [List.map_cons]; exact List.mem_cons_of_mem _ hx, hxni, hxr⟩
        · rintro (hy | ⟨x, hx, hxni, hxr⟩)
          · exact Or.inl hy
          · rw [List.map_cons] at hx
            rcases List.mem_cons.mp hx with rfl | hx'
            · exact Or.inl (reaches_mem_of_closed_list hvcl hv hxr)
            · exact Or.inr ⟨x, hx', hxni, hxr⟩
      · rw [hkc]
        congr 1
        ext C
        constructor
        · rintro ⟨x, hx, hxni, hxnv, rfl⟩
          exact ⟨x, by rw [List.map_cons]; exact List.mem_cons_of_mem _ hx, hxni, hxnv, rfl⟩
        · rintro ⟨x, hx, hxni, hxnv, rfl⟩
          rw [List.map_cons] at hx
          rcases List.mem_cons.mp hx with rfl | hx'
          · exact absurd hv hxnv
          · exact ⟨x, hx', hxni, hxnv, rfl⟩
    · cases hl : lookupId curr m with
      | none =>
        exfalso
        rw [← lookupId_isSome_iff] at hcurrk
        rw [hl] at hcurrk
        simp at hcurrk
      | some info =>
        have hreach : reachOf m curr = info.reachable_nodes := reachOf_eq_of_lookup hl
        by_cases hne : info.reachable_nodes = []
        · rw [show checkAux m ((curr, j) :: rest) v comps reports sizes clists =
              checkAux m rest v comps reports sizes clists by simp [checkAux, hv, hl, hne]]
          obtain ⟨k, dr, ds, dc, w, hrun, hperm, hnd, hk', hcl', hni', hiff, hsum, hkc⟩ :=
            ih v comps reports sizes clists hentr hvnd hvk hvcl hvni
          have hcurrni : reachOf m curr = [] := by rw [hreach, hne]
          refine ⟨k, dr, ds, dc, w, hrun, hperm, hnd, hk', hcl', hni', ?_, hsum, ?_⟩
          · intro y
            rw [hiff y]
            constructor
            · rintro (hy | ⟨x, hx, hxni, hxr⟩)
              · exact Or.inl hy
              · exact Or.inr ⟨x, by rw [List.map_cons]; exact List.mem_cons_of_mem _ hx, hxni, hxr⟩
            · rintro (hy | ⟨x, hx, hxni, hxr⟩)
              · exact Or.inl hy
              · rw [List.map_cons] at hx
                rcases List.mem_cons.mp hx with rfl | hx'
                · exact absurd hcurrni hxni
                · exact Or.inr ⟨x, hx', hxni, hxr⟩
          · rw [hkc]
            congr 1
            ext C
            constructor
            · rintro ⟨x, hx, hxni, hxnv, rfl⟩
              exact ⟨x, by rw [List.map_cons]; exact List.mem_cons_of_mem _ hx, hxni, hxnv, rfl⟩
            · rintro ⟨x, hx, hxni, hxnv, rfl⟩
              rw [List.map_cons] at hx
              rcases List.mem_cons.mp hx with rfl | hx'
              · exact absurd hcurrni hxni
              · exact ⟨x, hx', hxni, hxnv, rfl⟩
        · have hcurrni : reachOf m curr ≠ [] := by rw [hreach]; exact hne
          have hrk : (lookupId curr m).isSome := by rw [hl]; rfl
          obtain ⟨v', s', hrun1, ⟨w1, hw1v, hs1, hw1mem⟩, hv'nd, hv'k, hv'cl⟩ :=
            bfs_root_spec hcl hsym hvnd hv hrk hvk hvcl
          have hv'ni : ∀ x ∈ v', reachOf m x ≠ [] := by
            intro x hx
            rw [hw1v, List.mem_append] at hx
            rcases hx with hx | hx
            · rcases reaches_nonisolated hsym ((hw1mem x).mp hx) with rfl | hni
              · exact hcurrni
              · exact hni
            · exact hvni x hx
          have hvsub : ∀ y ∈ v, y ∈ v' := by
            intro y hy
            rw [hw1v, List.mem_append]
            exact Or.inr hy
          rw [checkAux_root hv hl hne hrun1]
          obtain ⟨k, dr, ds, dc, w2, hrun, hperm, hnd, hk', hcl', hni', hiff, hsum, hkc⟩ :=
            ih v' (comps + 1) (if 500 < s' then reports ++ [s'] else reports)
              (sizes ++ [s']) (clists ++ [v'.take (v'.length - v.length)])
              hentr hv'nd hv'k hv'cl hv'ni
          have htake : v'.take (v'.length - v.length) = w1 := by
            rw [hw1v]
            exact take_len_append w1 v
          rw [htake] at hrun ⊢
          refine ⟨k + 1, (if 500 < s' then [s'] else []) ++ dr, s' :: ds, w1 :: dc,
            w2 ++ w1, ?_, ?_, ?_, ?_, ?_, ?_, ?_, ?_, ?_⟩
          · rw [hrun]
            refine congrArg some (congrArg some ?_)
            refine Prod.ext ?_ (Prod.ext ?_ (Prod.ext ?_ ?_))
            · show comps + 1 + (k : Int) = comps + ((k : Nat) + 1 : Nat)
              push_cast
              ring
            · show (if 500 < s' then reports ++ [s'] else reports) ++ dr =
                reports ++ ((if 500 < s' then [s'] else []) ++ dr)
              by_cases h5 : 500 < s'
              · rw [if_pos h5, if_pos h5, List.append_assoc]
              · rw [if_neg h5, if_neg h5]
                simp
            · show sizes ++ [s'] ++ ds = sizes ++ (s' :: ds)
              simp
            · show clists ++ [w1] ++ dc = clists ++ (w1 :: dc)
              simp
          · show (w1 :: dc).flatten.Perm (w2 ++ w1)
            rw [List.flatten_cons]
            exact List.Perm.trans (List.Perm.append_left w1 hperm) List.perm_append_comm
          · rw [List.append_assoc, ← hw1v]
            exact hnd
          · intro x hx
            rw [List.append_assoc, ← hw1v] at hx
            exact hk' x hx
          · intro x hx
            rw [List.append_assoc, ← hw1v] at hx
            rw [List.append_assoc, ← hw1v]
            exact hcl' x hx
          · intro x hx
            rw [List.append_assoc, ← hw1v] at hx
            exact hni' x hx
          · intro y
            rw [List.append_assoc, ← hw1v, hiff y]
            constructor
            · rintro (hy | ⟨x, hx, hxni, hxr⟩)
              · rw [hw1v, List.mem_append] at hy
                rcases hy with hy | hy
                · exact Or.inr ⟨curr, by rw [List.map_cons]; exact List.mem_cons_self _ _, hcurrni, (hw1mem y).mp hy⟩
                · exact Or.inl hy
              · exact Or.inr ⟨x, by rw [List.map_cons]; exact List.mem_cons_of_mem _ hx, hxni, hxr⟩
            · rintro (hy | ⟨x, hx, hxni, hxr⟩)
              · exact Or.inl (hvsub y hy)
              · rw [List.map_cons] at hx
                rcases List.mem_cons.mp hx with rfl | hx'
                · exact Or.inl (by
                    rw [hw1v, List.mem_append]
                    exact Or.inl ((hw1mem y).mpr hxr))
                · exact Or.inr ⟨x, hx', hxni, hxr⟩
          · show ((s' :: ds).map (fun z => z - 1)).sum = ((w2 ++ w1).length : Int)
            rw [List.map_cons, List.sum_cons, hsum, hs1]
            simp only [List.length_append]
            push_cast
            ring
          · have hS : rootClasses m (((curr, j) :: rest).map Prod.fst) v =
                insert (classSet m curr) (rootClasses m (rest.map Prod.fst) v') := by
              ext C
              constructor
              · rintro ⟨x, hx, hxni, hxnv, rfl⟩
                rw [List.map_cons] at hx
                rcases List.mem_cons.mp hx with rfl | hx'
                · exact Set.mem_insert _ _
                · by_cases hrx : Reaches m curr x
                  · rw [classSet_eq_of_reaches hsym hrx]
                    exact Set.mem_insert _ _
                  · refine Set.mem_insert_of_mem _ ⟨x, hx', hxni, ?_, rfl⟩
                    intro hc
                    rw [hw1v, List.mem_append] at hc
                    rcases hc with hc | hc
                    · exact hrx ((hw1mem x).mp hc)
                    · exact hxnv hc
              · intro hC
                rcases Set.mem_insert_iff.mp hC with rfl | ⟨x, hx', hxni, hxnv', rfl⟩
                · exact ⟨curr, by rw [List.map_cons]; exact List.mem_cons_self _ _, hcurrni, hv, rfl⟩
                · refine ⟨x, by rw [List.map_cons]; exact List.mem_cons_of_mem _ hx', hxni, fun hc => hxnv' (hvsub x hc), rfl⟩
            have hnotmem : classSet m curr ∉ rootClasses m (rest.map Prod.fst) v' := by
              rintro ⟨x, -, -, hxnv', heq⟩
              apply hxnv'
              rw [hw1v, List.mem_append]
              exact Or.inl ((hw1mem x).mpr (reaches_of_classSet_eq heq.symm))
            rw [hS, Set.ncard_insert_of_not_mem hnotmem
              (rootClasses_finite m (rest.map Prod.fst) v'), hkc]

/-- Claim C6, amended.  On every graph whose adjacency lists are mutually
consistent (every listed neighbour exists and lists the point back, as the
loader guarantees), one run of the analyzer computes component sizes whose
values minus one — the dequeue counts, i.e. the true numbers of points —
sum to the number of points with nonempty adjacency, and no point is visited
in more than one component (the concatenation of the per-component node lists
has no duplicates). -/
theorem c6_amended_sizes_partition (m : List (Int × NodeInfo)) (wy : List (Int × WayInfo))
    (hb : closedB m = true) (hs : symmB m = true) :
    ∃ (c : Int) (reports sizes : List Int) (clists : List (List Int)),
      checkFull ⟨m, wy⟩ = some (some (c, reports, sizes, clists)) ∧
      (sizes.map (fun z => z - 1)).sum = ((nonIsolated m).card : Int) ∧
      clists.flatten.Nodup := by
  have hcl := closedB_closedP hb
  have hsym := symmB_symmP hs
  obtain ⟨k, dr, ds, dc, w, hrun, hperm, hnd, hk', hcl', hni', hiff, hsum, hkc⟩ :=
    checkAux_spec hcl hsym m [] 0 [] [] []
      (fun p hp => List.mem_map.mpr ⟨p, hp, rfl⟩) List.nodup_nil
      (by simp) (by simp) (by simp)
  have hwnd : w.Nodup := by simpa using hnd
  have hset : w.toFinset = nonIsolated m := by
    ext y
    rw [List.mem_toFinset]
    have hy := hiff y
    simp only [List.append_nil, List.mem_nil_iff, false_or] at hy
    rw [hy]
    unfold nonIsolated
    rw [Finset.mem_filter, List.mem_toFinset]
    constructor
    · rintro ⟨x, hxk, hxni, hxr⟩
      constructor
      · rcases reaches_key hcl hxr with rfl | hk
        · exact hxk
        · exact lookupId_isSome_iff.mp hk
      · rcases reaches_nonisolated hsym hxr with rfl | hni
        · exact hxni
        · exact hni
    · rintro ⟨hyk, hyni⟩
      exact ⟨y, hyk, hyni, Relation.ReflTransGen.refl⟩
  have hlen : (w.length : Int) = ((nonIsolated m).card : Int) := by
    rw [← List.toFinset_card_of_nodup hwnd, hset]
  refine ⟨(0 : Int) + (k : Int), dr, ds, dc, ?_, ?_, ?_⟩
  · unfold checkFull
    show checkAux m m [] 0 [] [] [] = _
    rw [hrun]
    simp
  · rw [hsum, hlen]
  · exact (hperm.nodup_iff).mpr hwnd

/-- Witness for `c6_amended_sizes_partition` at the single-edge graph. -/
theorem c6_amended_sizes_partition_witness :
    closedB edgeNodes = true ∧ symmB edgeNodes = true ∧
      ∃ (c : Int) (reports sizes : List Int) (clists : List (List Int)),
        checkFull ⟨edgeNodes, []⟩ = some (some (c, reports, sizes, clists)) ∧
        (sizes.map (fun z => z - 1)).sum = ((nonIsolated edgeNodes).card : Int) ∧
        clists.flatten.Nodup :=
  ⟨by decide, by decide, c6_amended_sizes_partition edgeNodes [] (by decide) (by decide)⟩

/-! Transfer of the graph along a permutation of the bindings. -/

theorem lookupId_eq_of_perm {β : Type} {l l' : List (Int × β)} (hp : l.Perm l')
    (hnd : (l.map Prod.fst).Nodup) : ∀ k, lookupId k l = lookupId k l' := by
  intro k
  have hnd' : (l'.map Prod.fst).Nodup := ((hp.map Prod.fst).nodup_iff).mp hnd
  cases h : lookupId k l with
  | some b =>
    exact (lookupId_of_mem_nodup hnd' (hp.subset (lookupId_mem h))).symm
  | none =>
    cases h' : lookupId k l' with
    | none => rfl
    | some b =>
      have hmem : (k, b) ∈ l := hp.symm.subset (lookupId_mem h')
      have := lookupId_of_mem_nodup hnd hmem
      rw [h] at this
      simp at this

/-- Claim C5, amended.  For every graph whose adjacency lists are mutually
consistent (every listed neighbour exists and lists the point back — true of
every graph the loader builds, though not of arbitrary `Map` values), the
component count of `check_connectivity` is the same for any two enumeration
orders of the same bindings. -/
theorem c5_amended_order_invariance (m m' : List (Int × NodeInfo))
    (w w' : List (Int × WayInfo)) (hb : closedB m = true) (hs : symmB m = true)
    (hnd : (m.map Prod.fst).Nodup) (hp : m.Perm m') :
    ∃ (c : Int) (r r' : List Int),
      check_connectivity ⟨m, w⟩ = some (some (c, r)) ∧
      check_connectivity ⟨m', w'⟩ = some (some (c, r')) := by
  have hcl := closedB_closedP hb
  have hsym := symmB_symmP hs
  have hlook : ∀ k, lookupId k m = lookupId k m' := lookupId_eq_of_perm hp hnd
  have hreF : reachOf m = reachOf m' := by
    funext x
    unfold reachOf
    rw [hlook x]
  have hcl2 : ClosedP m' := by
    intro x y hy
    rw [← hreF] at hy
    rw [← hlook y]
    exact hcl x y hy
  have hsym2 : SymmP m' := by
    intro x y hy
    rw [← hreF] at hy
    rw [← hreF]
    exact hsym x y hy
  have hStep : Step m = Step m' := by
    funext x y
    unfold Step
    rw [hreF]
  have hReq : Reaches m = Reaches m' := by
    unfold Reaches
    rw [hStep]
  obtain ⟨k1, dr1, ds1, dc1, w1, hrun1, -, -, -, -, -, -, -, hkc1⟩ :=
    checkAux_spec hcl hsym m [] 0 [] [] []
      (fun p hpmem => List.mem_map.mpr ⟨p, hpmem, rfl⟩) List.nodup_nil
      (by simp) (by simp) (by simp)
  obtain ⟨k2, dr2, ds2, dc2, w2, hrun2, -, -, -, -, -, -, -, hkc2⟩ :=
    checkAux_spec hcl2 hsym2 m' [] 0 [] [] []
      (fun p hpmem => List.mem_map.mpr ⟨p, hpmem, rfl⟩) List.nodup_nil
      (by simp) (by simp) (by simp)
  have hSeq : rootClasses m (m.map Prod.fst) [] = rootClasses m' (m'.map Prod.fst) [] := by
    unfold rootClasses classSet
    rw [hreF, hReq]
    ext C
    constructor
    · rintro ⟨x, hx, hni, hnv, rfl⟩
      exact ⟨x, (hp.map Prod.fst).mem_iff.mp hx, hni, hnv, rfl⟩
    · rintro ⟨x, hx, hni, hnv, rfl⟩
      exact ⟨x, (hp.map Prod.fst).mem_iff.mpr hx, hni, hnv, rfl⟩
  have hkk : k1 = k2 := by
    rw [hkc1, hkc2, hSeq]
  refine ⟨(k1 : Int), dr1, dr2, ?_, ?_⟩
  · unfold check_connectivity checkFull
    show (checkAux m m [] 0 [] [] []).map _ = _
    rw [hrun1]
    simp
  · unfold check_connectivity checkFull
    show (checkAux m' m' [] 0 [] [] []).map _ = _
    rw [hrun2]
    simp [hkk]

/-- The single-edge graph in the opposite enumeration order. -/
def edgeNodesRev : List (Int × NodeInfo) :=
  [(1, ⟨[], 0, 0, [0]⟩), (0, ⟨[], 0, 0, [1]⟩)]

/-- Witness for `c5_amended_order_invariance` at the single-edge graph and
its reversed enumeration. -/
theorem c5_amended_order_invariance_witness :
    closedB edgeNodes = true ∧ symmB edgeNodes = true ∧
      ((edgeNodes.map Prod.fst).Nodup ∧ edgeNodes.Perm edgeNodesRev) ∧
      ∃ (c : Int) (r r' : List Int),
        check_connectivity ⟨edgeNodes, []⟩ = some (some (c, r)) ∧
        check_connectivity ⟨edgeNodesRev, []⟩ = some (some (c, r')) :=
  ⟨by decide, by decide, ⟨by decide, by decide⟩,
    c5_amended_order_invariance edgeNodes edgeNodesRev [] [] (by decide) (by decide)
      (by decide) (by decide)⟩
